import Mathlib

/-!
Verification development for the stitch resource-container library.

The library appends named binary resources to an executable file and reads
them back.  The public surface is the C API declared in
src/c-api/include/stitch.h and exercised by src/c-api/test/c-test.c.
The engine behind that API (footer codec, resource table, file scanner,
writer and reader sessions) is modelled here from the specification, since
only its declarations and callers are in the source tree.  Bytes are
modelled as natural numbers below 256, files as lists of bytes, and the
file system as an association list from path names to file contents.
-/

namespace Stitch

deriving instance DecidableEq for Except

/-- Modelled from the spec: fixed footer size, 8 magic + 1 version +
four 8-byte little-endian fields (base length, table offset, table
length, resource count). -/

def footerSize : Nat := 41

/-- Modelled from the spec: the magic signature distinguishing a stitched
file from a plain executable.  The spec leaves the concrete value to the
implementation; this model fixes one 8-byte constant. -/

def stitchMagic : List Nat := [115, 116, 105, 116, 99, 104, 114, 99]

/-- Modelled from the spec: the single-byte format version emitted by the
writer, monotonically increasing, never reused. -/

def formatVersion : Nat := 1

/-- Little-endian byte encoding of a natural number into k bytes. -/

def leBytes : Nat → Nat → List Nat
  | 0, _ => []
  | k + 1, n => n % 256 :: leBytes k (n / 256)

/-- Modelled from the spec: 8-byte little-endian integer field. -/

def le64 (n : Nat) : List Nat := leBytes 8 n

/-- Modelled from the spec: 2-byte little-endian name-length field. -/

def le16 (n : Nat) : List Nat := leBytes 2 n

/-- Little-endian byte decoding. -/

def deBytes (bs : List Nat) : Nat := bs.foldr (fun b acc => b + 256 * acc) 0

/-- Modelled from the spec: the fixed-size trailer record fields. -/

structure Footer where
  version : Nat
  baseLength : Nat
  tableOffset : Nat
  tableLength : Nat
  resourceCount : Nat
deriving DecidableEq

/-- Modelled from the spec: footer serialization, magic then version byte
then the four little-endian 8-byte fields. -/

def encodeFooter (f : Footer) : List Nat :=
  stitchMagic ++ [f.version % 256] ++ le64 f.baseLength ++ le64 f.tableOffset ++
    le64 f.tableLength ++ le64 f.resourceCount

/-- Outcome of decoding the trailing bytes of a file. -/

inductive FooterScan where
  | notStitched
  | unsupported
  | found (f : Footer)
deriving DecidableEq

/-- Modelled from the spec: footer deserialization from the last
footerSize bytes; magic mismatch yields notStitched, a recognized but
newer version yields unsupported. -/

def decodeFooter (bs : List Nat) : FooterScan :=
  if bs.take 8 ≠ stitchMagic then .notStitched
  else
    let v := deBytes ((bs.drop 8).take 1)
    if formatVersion < v then .unsupported
    else
      .found
        { version := v
          baseLength := deBytes ((bs.drop 9).take 8)
          tableOffset := deBytes ((bs.drop 17).take 8)
          tableLength := deBytes ((bs.drop 25).take 8)
          resourceCount := deBytes ((bs.drop 33).take 8) }

/-- Modelled from the spec: one resource entry, a unique name, the payload
offset within the resource-data region, the payload byte length, and the
8-byte opaque scratch field. -/

structure ResourceEntry where
  name : List Nat
  offset : Nat
  byteLen : Nat
  scratch : List Nat
deriving DecidableEq

/-- Modelled from the spec: per-entry serialization, 2-byte name length,
name bytes, 8-byte offset, 8-byte length, 8 scratch bytes. -/

def encodeEntry (e : ResourceEntry) : List Nat :=
  le16 e.name.length ++ e.name ++ le64 e.offset ++ le64 e.byteLen ++ e.scratch

/-- Modelled from the spec: table serialization, 8-byte count then the
entries in order. -/

def encodeTable (es : List ResourceEntry) : List Nat :=
  le64 es.length ++ (es.map encodeEntry).flatten

/-- Modelled from the spec: entry-list deserialization; fails when a
declared name length or entry count would read past the buffer end. -/

def decodeEntries : Nat → List Nat → Option (List ResourceEntry)
  | 0, _ => some []
  | n + 1, bs =>
    if bs.length < 2 then none
    else
      let nameLen := deBytes (bs.take 2)
      let r1 := bs.drop 2
      if r1.length < nameLen + 24 then none
      else
        let r2 := r1.drop nameLen
        match decodeEntries n (r2.drop 24) with
        | none => none
        | some es =>
          some (⟨r1.take nameLen, deBytes (r2.take 8), deBytes ((r2.drop 8).take 8),
            (r2.drop 16).take 8⟩ :: es)

/-- Modelled from the spec: table deserialization, count first. -/

def decodeTable (bs : List Nat) : Option (List ResourceEntry) :=
  if bs.length < 8 then none
  else decodeEntries (deBytes (bs.take 8)) (bs.drop 8)

/-- Well-formedness of an entry for exact serialization round-trips. -/

def EntryWF (e : ResourceEntry) : Prop :=
  e.name.length < 2 ^ 16 ∧ e.offset < 2 ^ 64 ∧ e.byteLen < 2 ^ 64 ∧ e.scratch.length = 8

/-- Error kinds of the C API, mirroring the STITCH_ERROR codes declared in
src/c-api/include/stitch.h. -/

inductive Err where
  | unknown
  | outputFileAlreadyExists
  | inputFileCouldNotOpen
  | outputFileCouldNotOpen
  | invalidExecutableFormat
  | resourceNotFound
  | ioError
deriving DecidableEq

/-- Numeric error codes as fixed by src/c-api/include/stitch.h. -/

def errCode : Err → Nat
  | .unknown => 1
  | .outputFileAlreadyExists => 2
  | .inputFileCouldNotOpen => 3
  | .outputFileCouldNotOpen => 4
  | .invalidExecutableFormat => 5
  | .resourceNotFound => 6
  | .ioError => 7

/-- Human-readable diagnostic text for each error kind, as rendered by the
marshalling layer. -/

def errMsg : Err → String
  | .unknown => "unknown error"
  | .outputFileAlreadyExists => "output file already exists"
  | .inputFileCouldNotOpen => "input file could not be opened"
  | .outputFileCouldNotOpen => "output file could not be opened"
  | .invalidExecutableFormat => "invalid executable format"
  | .resourceNotFound => "resource not found"
  | .ioError => "i/o error"

/-- File system model: an association list from path names to byte
contents; the first binding for a path wins. -/

abbrev FS := List (String × List Nat)

/-- Open a path for reading: its current contents, if the file exists. -/

def fsLookup (fs : FS) (p : String) : Option (List Nat) := fs.lookup p

/-- Create or overwrite a file. -/

def fsWrite (fs : FS) (p : String) (v : List Nat) : FS := (p, v) :: fs

/-- Delete a file. -/

def fsErase (fs : FS) (p : String) : FS := fs.filter (fun kv => kv.1 != p)

/-- Result of the file scanner. -/

structure ScanResult where
  base : Nat
  table : List ResourceEntry
  version : Nat
deriving DecidableEq

/-- Modelled from the spec: the file scanner.  Reads the fixed-size footer
from the end of the source; a short source or a magic mismatch means a
fresh executable (base length equals source length, no table); a matching
footer locates the resource table, whose corrupt decode is a hard error;
an unsupported version is a hard error. -/

def locate (src : List Nat) : Except Err ScanResult :=
  if src.length < footerSize then .ok ⟨src.length, [], 0⟩
  else
    match decodeFooter (src.drop (src.length - footerSize)) with
    | .notStitched => .ok ⟨src.length, [], 0⟩
    | .unsupported => .error .invalidExecutableFormat
    | .found f =>
      match decodeTable ((src.drop f.tableOffset).take f.tableLength) with
      | none => .error .unknown
      | some es => .ok ⟨f.baseLength, es, f.version⟩

/-- Source of a pending writer resource: path-backed (streamed at commit)
or buffer-backed (borrowed until commit). -/

inductive RSource where
  | path (p : String)
  | bytes (data : List Nat)
deriving DecidableEq

/-- Pending resource held by a writer session. -/

structure PendingRes where
  name : List Nat
  src : RSource
  scratch : List Nat
deriving DecidableEq

/-- Writer session state. -/

structure Writer where
  originalPath : String
  outputPath : Option String
  baseLength : Nat
  pending : List PendingRes
deriving DecidableEq

/-- Modelled from the spec: the output-collision guard of writer session
creation.  The guard applies only when the output path is provided,
non-empty, distinct from the original path, and already exists. -/

def outputCollides (fs : FS) (orig : String) : Option String → Bool
  | none => false
  | some o => o != "" && o != orig && (fsLookup fs o).isSome

/-- Modelled from the spec: stitch_init_writer.  Checks the
output-collision guard, opens the original for reading, and runs the file
scanner against it to learn the base length, so a pre-existing resource
table is excluded from the new base. -/

def writerInit (fs : FS) (orig : String) (out : Option String) : Except Err Writer :=
  if outputCollides fs orig out then .error .outputFileAlreadyExists
  else
    match fsLookup fs orig with
    | none => .error .inputFileCouldNotOpen
    | some src =>
      match locate src with
      | .error e => .error e
      | .ok sr => .ok ⟨orig, out, sr.base, []⟩

/-- Modelled from the spec: shared add logic; duplicate names are
rejected, the new entry receives the all-zero default scratch and the
next index. -/

def writerAddCommon (w : Writer) (name : List Nat) (src : RSource) :
    Except Err (Writer × Nat) :=
  if name ∈ w.pending.map (fun p => p.name) then .error .unknown
  else
    .ok ({ w with pending := w.pending ++ [⟨name, src, List.replicate 8 0⟩] },
      w.pending.length)

/-- Modelled from the spec: stitch_writer_add_resource_from_path; records
a path-backed pending entry without reading the file yet. -/

def writerAddFromPath (w : Writer) (name : List Nat) (path : String) :
    Except Err (Writer × Nat) :=
  writerAddCommon w name (.path path)

/-- Modelled from the spec: stitch_writer_add_resource_from_bytes; records
a buffer-backed pending entry. -/

def writerAddFromBytes (w : Writer) (name : List Nat) (data : List Nat) :
    Except Err (Writer × Nat) :=
  writerAddCommon w name (.bytes data)

/-- Modelled from the spec: stitch_writer_set_scratch_bytes; overwrites
the scratch field of the entry at the given index, which must hold
exactly 8 bytes; an out-of-range index is ResourceNotFound. -/

def writerSetScratch (w : Writer) (idx : Nat) (bytes : List Nat) : Except Err Writer :=
  if h : idx < w.pending.length then
    if bytes.length = 8 then
      let e := w.pending.get ⟨idx, h⟩
      .ok { w with pending := w.pending.set idx ⟨e.name, e.src, bytes⟩ }
    else .error .unknown
  else .error .resourceNotFound

/-- Modelled from the spec: payload resolution at commit time; a
buffer-backed entry supplies its borrowed bytes, a path-backed entry is
streamed from the file system and a missing file is an i/o error. -/

def resolveSource (fs : FS) : RSource → Except Err (List Nat)
  | .bytes d => .ok d
  | .path p =>
    match fsLookup fs p with
    | some d => .ok d
    | none => .error .ioError

/-- Resolve every pending resource to its payload bytes, in order. -/

def resolveAll (fs : FS) : List PendingRes → Except Err (List (PendingRes × List Nat))
  | [] => .ok []
  | pr :: rest =>
    match resolveSource fs pr.src with
    | .error e => .error e
    | .ok d =>
      match resolveAll fs rest with
      | .error e => .error e
      | .ok xs => .ok ((pr, d) :: xs)

/-- Modelled from the spec: final offsets and lengths are recorded as each
payload is written, offsets measured within the resource-data region. -/

def mkEntries (off : Nat) : List (PendingRes × List Nat) → List ResourceEntry
  | [] => []
  | (pr, payload) :: rest =>
    ⟨pr.name, off, payload.length, pr.scratch⟩ :: mkEntries (off + payload.length) rest

/-- Modelled from the spec: the bytes a successful commit writes, in
order: the first base-length bytes of the original, each payload in index
order, the encoded resource table, and the footer. -/

def commitBytes (w : Writer) (fs : FS) : Except Err (List Nat) :=
  match fsLookup fs w.originalPath with
  | none => .error .inputFileCouldNotOpen
  | some orig =>
    match resolveAll fs w.pending with
    | .error e => .error e
    | .ok resolved =>
      let base := orig.take w.baseLength
      let payload := (resolved.map (fun x => x.2)).flatten
      let table := encodeTable (mkEntries 0 resolved)
      .ok (base ++ payload ++ table ++
        encodeFooter ⟨formatVersion, base.length, base.length + payload.length,
          table.length, (mkEntries 0 resolved).length⟩)

/-- Destination the commit replaces: the output path, or the original in
in-place mode. -/

def targetPath (w : Writer) : String := w.outputPath.getD w.originalPath

/-- Longest path name present in the file system. -/

def maxPathLen (fs : FS) : Nat := (fs.map (fun kv => kv.1.length)).foldr max 0

/-- Modelled from the spec: the fresh temporary destination the commit
stages to.  Freshness is modelled by choosing a name strictly longer
than every path present in the file system, so the temporary can
collide with no existing file, the original and the target included. -/

def tempPath (fs : FS) (w : Writer) : String :=
  targetPath w ++ ".stitch-tmp" ++ String.mk (List.replicate (maxPathLen fs) 'x')

/-- Modelled from the spec: stitch_writer_commit.  Streams the full output
to a fresh temporary destination and atomically renames it over the
target only after all bytes are flushed, uniformly in in-place and
separate-output modes; on failure the temporary is discarded and no
destructive write has touched the target.  Returns the resulting file
system and the error code. -/

def writerCommit (w : Writer) (fs : FS) : FS × Nat :=
  match commitBytes w fs with
  | .error e => (fsErase (fsWrite fs (tempPath fs w) []) (tempPath fs w), errCode e)
  | .ok out =>
    let staged := fsWrite fs (tempPath fs w) out
    (fsWrite (fsErase staged (tempPath fs w)) (targetPath w) out, 0)

/-- Reader session state. -/

structure Reader where
  source : List Nat
  base : Nat
  table : List ResourceEntry
  version : Nat
deriving DecidableEq

/-- Modelled from the spec: stitch_init_reader.  Opens the path and runs
the file scanner; a not-stitched outcome is a valid session with zero
resources and format version 0, not an error. -/

def readerInit (fs : FS) (path : String) : Except Err Reader :=
  match fsLookup fs path with
  | none => .error .inputFileCouldNotOpen
  | some src =>
    match locate src with
    | .error e => .error e
    | .ok sr => .ok ⟨src, sr.base, sr.table, sr.version⟩

/-- Modelled from the spec: stitch_reader_get_resource_count. -/

def readerCount (r : Reader) : Nat := r.table.length

/-- Modelled from the spec: stitch_reader_get_format_version. -/

def readerVersion (r : Reader) : Nat := r.version

/-- Modelled from the spec: stitch_reader_get_resource_index; resolves a
name to its index, ResourceNotFound on a miss. -/

def readerIndexOf (r : Reader) (name : List Nat) : Except Err Nat :=
  match r.table.findIdx? (fun e => e.name == name) with
  | some i => .ok i
  | none => .error .resourceNotFound

/-- Modelled from the spec: stitch_reader_get_resource_byte_len. -/

def readerByteLen (r : Reader) (idx : Nat) : Except Err Nat :=
  match r.table[idx]? with
  | some e => .ok e.byteLen
  | none => .error .resourceNotFound

/-- Modelled from the spec: stitch_reader_get_resource_bytes; reads the
payload at base length plus the entry offset, for the entry length. -/

def readerBytes (r : Reader) (idx : Nat) : Except Err (List Nat) :=
  match r.table[idx]? with
  | some e => .ok ((r.source.drop (r.base + e.offset)).take e.byteLen)
  | none => .error .resourceNotFound

/-- Modelled from the spec: stitch_reader_get_scratch_bytes; always
defined for a valid index, all-zero if never set. -/

def readerScratch (r : Reader) (idx : Nat) : Except Err (List Nat) :=
  match r.table[idx]? with
  | some e => .ok e.scratch
  | none => .error .resourceNotFound

/-- Largest value of a C uint64_t, the failure sentinel of the C API. -/

def UINT64MAX : Nat := 2 ^ 64 - 1

/-- Writer session as held across the C boundary: the core state, the
last diagnostic string, and every heap allocation the session owns. -/

structure CWriter where
  core : Writer
  diag : Option String
  owned : List String
deriving DecidableEq

/-- Reader session as held across the C boundary. -/

structure CReader where
  core : Reader
  diag : Option String
  owned : List String
deriving DecidableEq

/-- One call into the writer side of the C API. -/

inductive WriterOp where
  | addPath (name : List Nat) (path : String)
  | addBytes (name : List Nat) (data : List Nat)
  | setScratch (idx : Nat) (bytes : List Nat)
  | commit (fs : FS)

/-- One call into the reader side of the C API. -/

inductive ReaderOp where
  | count
  | version
  | getIndex (name : List Nat)
  | getByteLen (idx : Nat)
  | getBytes (idx : Nat)
  | getScratch (idx : Nat)

/-- Core outcome of a writer call: next core state, returned value, and
the error, if any.  A failing call returns the UINT64_MAX sentinel. -/

def writerStep (w : Writer) : WriterOp → Writer × Nat × Option Err
  | .addPath n p =>
    match writerAddFromPath w n p with
    | .ok (w2, i) => (w2, i, none)
    | .error e => (w, UINT64MAX, some e)
  | .addBytes n d =>
    match writerAddFromBytes w n d with
    | .ok (w2, i) => (w2, i, none)
    | .error e => (w, UINT64MAX, some e)
  | .setScratch i b =>
    match writerSetScratch w i b with
    | .ok w2 => (w2, 0, none)
    | .error e => (w, UINT64MAX, some e)
  | .commit fs =>
    match commitBytes w fs with
    | .ok _ => (w, 0, none)
    | .error e => (w, UINT64MAX, some e)

/-- Modelled from the spec: the marshalling layer around a writer call.
Every call resets the diagnostic; a failure stores a fresh diagnostic
string owned by the session and returns its numeric code. -/

def cWriterRun (cw : CWriter) (op : WriterOp) : CWriter × Nat × Nat :=
  match writerStep cw.core op with
  | (w2, v, none) => (⟨w2, none, cw.owned⟩, v, 0)
  | (w2, v, some e) => (⟨w2, some (errMsg e), errMsg e :: cw.owned⟩, v, errCode e)

/-- Core outcome of a reader call: returned value and the error, if any. -/

def readerStep (r : Reader) : ReaderOp → Nat × Option Err
  | .count => (readerCount r, none)
  | .version => (readerVersion r, none)
  | .getIndex n =>
    match readerIndexOf r n with
    | .ok i => (i, none)
    | .error e => (UINT64MAX, some e)
  | .getByteLen i =>
    match readerByteLen r i with
    | .ok l => (l, none)
    | .error e => (UINT64MAX, some e)
  | .getBytes i =>
    match readerBytes r i with
    | .ok _ => (0, none)
    | .error e => (UINT64MAX, some e)
  | .getScratch i =>
    match readerScratch r i with
    | .ok _ => (0, none)
    | .error e => (UINT64MAX, some e)

/-- Modelled from the spec: the marshalling layer around a reader call. -/

def cReaderRun (cr : CReader) (op : ReaderOp) : CReader × Nat × Nat :=
  match readerStep cr.core op with
  | (v, none) => (⟨cr.core, none, cr.owned⟩, v, 0)
  | (v, some e) => (⟨cr.core, some (errMsg e), errMsg e :: cr.owned⟩, v, errCode e)

/-- Modelled from the spec: stitch_deinit on a writer session releases
every allocation the session owns, diagnostic strings included; the
released allocations are returned. -/

def cWriterDeinit (cw : CWriter) : List String := cw.owned

/-- Modelled from the spec: stitch_deinit on a reader session. -/

def cReaderDeinit (cr : CReader) : List String := cr.owned

/-- Add one resource through the C API entry points, dispatching on the
kind of source. -/

def addOne (w : Writer) (name : List Nat) (src : RSource) : Except Err (Writer × Nat) :=
  match src with
  | .path p => writerAddFromPath w name p
  | .bytes d => writerAddFromBytes w name d

/-- Add a list of (name, source, optional scratch) tuples to a writer:
each is added through the add entry points and, when a scratch override
is given, stitch_writer_set_scratch_bytes is called on its index. -/

def addAll (w : Writer) : List (List Nat × RSource × Option (List Nat)) → Except Err Writer
  | [] => .ok w
  | (n, s, scr) :: rest =>
    match addOne w n s with
    | .error e => .error e
    | .ok (w1, i) =>
      match scr with
      | none => addAll w1 rest
      | some b =>
        match writerSetScratch w1 i b with
        | .error e => .error e
        | .ok w2 => addAll w2 rest

/-- Pending entry that a successful addAll records for one input tuple. -/

def mkPending (x : List Nat × RSource × Option (List Nat)) : PendingRes :=
  ⟨x.1, x.2.1, (x.2.2).getD (List.replicate 8 0)⟩

/-- Sum of the lengths of the first i payloads: the final offset of
payload i within the resource-data region. -/

def sumLenBefore (ps : List (List Nat)) (i : Nat) : Nat :=
  ((ps.take i).map List.length).sum

/-- Bytes of a successful commit, named for reuse in the theorems: base
executable slice, payloads in order, encoded table, footer. -/

def commitLayout (orig : List Nat) (baseLen : Nat)
    (resolved : List (PendingRes × List Nat)) : List Nat :=
  orig.take baseLen ++ (resolved.map (fun x => x.2)).flatten ++
    encodeTable (mkEntries 0 resolved) ++
    encodeFooter ⟨formatVersion, (orig.take baseLen).length,
      (orig.take baseLen).length + (resolved.map (fun x => x.2)).flatten.length,
      (encodeTable (mkEntries 0 resolved)).length, (mkEntries 0 resolved).length⟩

/-- The footer a commit emits over a given original file, base length and
resolved payload list. -/

def commitFooterOf (orig : List Nat) (baseLen : Nat)
    (resolved : List (PendingRes × List Nat)) : Footer :=
  ⟨formatVersion, (orig.take baseLen).length,
    (orig.take baseLen).length + (resolved.map (fun x => x.2)).flatten.length,
    (encodeTable (mkEntries 0 resolved)).length, (mkEntries 0 resolved).length⟩

/-- Concrete file system for the round-trip witness: a 3-byte host
executable and a 3-byte path-backed resource file. -/

def fsWit : FS := [("exe", [0, 1, 2]), ("one", [97, 98, 99])]

/-- Concrete inputs for the round-trip witness: a path-backed resource
with an explicit scratch override and a buffer-backed resource without
one. -/

def inputsWit : List (List Nat × RSource × Option (List Nat)) :=
  [([1], .path "one", some [1, 2, 3, 4, 5, 6, 7, 8]),
    ([2], .bytes [97, 98, 99, 100], none)]

/-- Writer session right after creation in the round-trip witness. -/

def w0Wit : Writer := ⟨"exe", some "new", 3, []⟩

/-- Writer session with both witness resources pending. -/

def wWit : Writer := ⟨"exe", some "new", 3,
  [⟨[1], .path "one", [1, 2, 3, 4, 5, 6, 7, 8]⟩,
    ⟨[2], .bytes [97, 98, 99, 100], List.replicate 8 0⟩]⟩

/-- Output bytes of the round-trip witness commit. -/

def outWit : List Nat := commitLayout [0, 1, 2] 3
  [(⟨[1], .path "one", [1, 2, 3, 4, 5, 6, 7, 8]⟩, [97, 98, 99]),
    (⟨[2], .bytes [97, 98, 99, 100], List.replicate 8 0⟩, [97, 98, 99, 100])]

/-- First-stitch output used by the idempotency witness: a 1-byte host
with one resource attached. -/

def out1Wit : List Nat :=
  commitLayout [9] 1 [(⟨[1], .bytes [5], List.replicate 8 0⟩, [5])]

/-- File system holding the already-stitched executable for the
idempotency witness. -/

def fs2Wit : FS := [("exe", out1Wit)]

/-- Writer session for the second, in-place stitch of the witness. -/

def w2Wit : Writer := ⟨"exe", none, 1, [⟨[2], .bytes [6], List.replicate 8 0⟩]⟩

theorem length_leBytes (k : Nat) : ∀ n, (leBytes k n).length = k := by
  induction k with
  | zero => intro n; rfl
  | succ k ih => intro n; simp [leBytes, ih]

theorem deBytes_leBytes (k : Nat) : ∀ n, deBytes (leBytes k n) = n % 256 ^ k := by
  induction k with
  | zero => intro n; simp [leBytes, deBytes, Nat.mod_one]
  | succ k ih =>
    intro n
    have h : (256 : Nat) ^ (k + 1) = 256 * 256 ^ k := by ring
    simp only [leBytes, deBytes, List.foldr] at *
    rw [ih (n / 256), h, Nat.mod_mul]

theorem length_le64 (n : Nat) : (le64 n).length = 8 := length_leBytes 8 n

theorem length_le16 (n : Nat) : (le16 n).length = 2 := length_leBytes 2 n

theorem deBytes_le64 (n : Nat) (h : n < 2 ^ 64) : deBytes (le64 n) = n := by
  have h256 : (256 : Nat) ^ 8 = 2 ^ 64 := by norm_num
  rw [le64, deBytes_leBytes, h256, Nat.mod_eq_of_lt h]

theorem deBytes_le16 (n : Nat) (h : n < 2 ^ 16) : deBytes (le16 n) = n := by
  have h256 : (256 : Nat) ^ 2 = 2 ^ 16 := by norm_num
  rw [le16, deBytes_leBytes, h256, Nat.mod_eq_of_lt h]

theorem length_encodeFooter (f : Footer) : (encodeFooter f).length = footerSize := by
  simp [encodeFooter, stitchMagic, length_le64, footerSize]

theorem decodeFooter_encodeFooter (f : Footer)
    (hv : f.version ≤ formatVersion) (hb : f.baseLength < 2 ^ 64)
    (ht : f.tableOffset < 2 ^ 64) (hl : f.tableLength < 2 ^ 64)
    (hc : f.resourceCount < 2 ^ 64) :
    decodeFooter (encodeFooter f) = .found f := by
  have hvlt : f.version < 256 := lt_of_le_of_lt hv (by norm_num [formatVersion])
  have hv256 : f.version % 256 = f.version := Nat.mod_eq_of_lt hvlt
  have hsplit : encodeFooter f =
      stitchMagic ++ ([f.version % 256] ++ (le64 f.baseLength ++ (le64 f.tableOffset ++
        (le64 f.tableLength ++ le64 f.resourceCount)))) := by
    simp [encodeFooter, List.append_assoc]
  have htake8 : (encodeFooter f).take 8 = stitchMagic := by
    rw [hsplit]; exact List.take_left' rfl
  have hdrop8 : (encodeFooter f).drop 8 =
      [f.version % 256] ++ (le64 f.baseLength ++ (le64 f.tableOffset ++
        (le64 f.tableLength ++ le64 f.resourceCount))) := by
    rw [hsplit]; exact List.drop_left' rfl
  have hdrop9 : (encodeFooter f).drop 9 =
      le64 f.baseLength ++ (le64 f.tableOffset ++
        (le64 f.tableLength ++ le64 f.resourceCount)) := by
    have : encodeFooter f =
        (stitchMagic ++ [f.version % 256]) ++ (le64 f.baseLength ++ (le64 f.tableOffset ++
          (le64 f.tableLength ++ le64 f.resourceCount))) := by
      simp [encodeFooter, List.append_assoc]
    rw [this]; exact List.drop_left' rfl
  have hdrop17 : (encodeFooter f).drop 17 =
      le64 f.tableOffset ++ (le64 f.tableLength ++ le64 f.resourceCount) := by
    have : encodeFooter f =
        (stitchMagic ++ [f.version % 256] ++ le64 f.baseLength) ++
          (le64 f.tableOffset ++ (le64 f.tableLength ++ le64 f.resourceCount)) := by
      simp [encodeFooter, List.append_assoc]
    rw [this]
    exact List.drop_left' (by simp [stitchMagic, length_le64])
  have hdrop25 : (encodeFooter f).drop 25 =
      le64 f.tableLength ++ le64 f.resourceCount := by
    have : encodeFooter f =
        (stitchMagic ++ [f.version % 256] ++ le64 f.baseLength ++ le64 f.tableOffset) ++
          (le64 f.tableLength ++ le64 f.resourceCount) := by
      simp [encodeFooter, List.append_assoc]
    rw [this]
    exact List.drop_left' (by simp [stitchMagic, length_le64])
  have hdrop33 : (encodeFooter f).drop 33 = le64 f.resourceCount := by
    have : encodeFooter f =
        (stitchMagic ++ [f.version % 256] ++ le64 f.baseLength ++ le64 f.tableOffset ++
          le64 f.tableLength) ++ le64 f.resourceCount := by
      simp [encodeFooter, List.append_assoc]
    rw [this]
    exact List.drop_left' (by simp [stitchMagic, length_le64])
  have htake1 : ((encodeFooter f).drop 8).take 1 = [f.version % 256] := by
    rw [hdrop8]; exact List.take_left' rfl
  have hfb : ((encodeFooter f).drop 9).take 8 = le64 f.baseLength := by
    rw [hdrop9]; exact List.take_left' (length_le64 _)
  have hft : ((encodeFooter f).drop 17).take 8 = le64 f.tableOffset := by
    rw [hdrop17]; exact List.take_left' (length_le64 _)
  have hfl : ((encodeFooter f).drop 25).take 8 = le64 f.tableLength := by
    rw [hdrop25]; exact List.take_left' (length_le64 _)
  have hfc : ((encodeFooter f).drop 33).take 8 = le64 f.resourceCount := by
    rw [hdrop33]
    have : (le64 f.resourceCount).take 8 = (le64 f.resourceCount).take (le64 f.resourceCount).length := by
      rw [length_le64]
    rw [this, List.take_length]
  have hvval : deBytes ((encodeFooter f).drop 8 |>.take 1) = f.version := by
    rw [htake1]; simp [deBytes, hv256]
  rw [decodeFooter]
  rw [if_neg (by rw [htake8]; exact fun h => h rfl)]
  simp only [hvval, hfb, hft, hfl, hfc]
  rw [if_neg (by omega)]
  congr 1
  rw [deBytes_le64 _ hb, deBytes_le64 _ ht, deBytes_le64 _ hl, deBytes_le64 _ hc]

theorem length_encodeEntry (e : ResourceEntry) (h8 : e.scratch.length = 8) :
    (encodeEntry e).length = 26 + e.name.length := by
  simp [encodeEntry, length_le16, length_le64, h8]; omega

theorem decodeEntries_encode (es : List ResourceEntry) (hwf : ∀ e ∈ es, EntryWF e) :
    decodeEntries es.length (es.map encodeEntry).flatten = some es := by
  induction es with
  | nil => rfl
  | cons e es ih =>
    obtain ⟨hn, ho, hl, hs⟩ := hwf e (List.mem_cons_self e es)
    have ihs := ih (fun x hx => hwf x (List.mem_cons_of_mem e hx))
    have hflat : ((e :: es).map encodeEntry).flatten =
        le16 e.name.length ++ (e.name ++ (le64 e.offset ++ (le64 e.byteLen ++
          (e.scratch ++ (es.map encodeEntry).flatten)))) := by
      simp [encodeEntry, List.append_assoc]
    have hlen2 : (le16 e.name.length).length = 2 := length_le16 _
    rw [List.length_cons, decodeEntries, hflat]
    have htk2 : (le16 e.name.length ++ (e.name ++ (le64 e.offset ++ (le64 e.byteLen ++
        (e.scratch ++ (es.map encodeEntry).flatten))))).take 2 = le16 e.name.length :=
      List.take_left' hlen2
    have hdr2 : (le16 e.name.length ++ (e.name ++ (le64 e.offset ++ (le64 e.byteLen ++
        (e.scratch ++ (es.map encodeEntry).flatten))))).drop 2 =
        e.name ++ (le64 e.offset ++ (le64 e.byteLen ++
          (e.scratch ++ (es.map encodeEntry).flatten))) :=
      List.drop_left' hlen2
    rw [if_neg (by simp [hlen2]), htk2, hdr2, deBytes_le16 _ hn]
    have hr1len : (e.name ++ (le64 e.offset ++ (le64 e.byteLen ++
        (e.scratch ++ (es.map encodeEntry).flatten)))).length =
        e.name.length + 24 + (es.map encodeEntry).flatten.length := by
      simp [length_le64, hs]; omega
    rw [if_neg (by omega)]
    have hdrn : (e.name ++ (le64 e.offset ++ (le64 e.byteLen ++
        (e.scratch ++ (es.map encodeEntry).flatten)))).drop e.name.length =
        le64 e.offset ++ (le64 e.byteLen ++ (e.scratch ++ (es.map encodeEntry).flatten)) :=
      List.drop_left' rfl
    have htkn : (e.name ++ (le64 e.offset ++ (le64 e.byteLen ++
        (e.scratch ++ (es.map encodeEntry).flatten)))).take e.name.length = e.name :=
      List.take_left' rfl
    have hdr24 : (le64 e.offset ++ (le64 e.byteLen ++ (e.scratch ++
        (es.map encodeEntry).flatten))).drop 24 = (es.map encodeEntry).flatten := by
      have hsplit : le64 e.offset ++ (le64 e.byteLen ++ (e.scratch ++
          (es.map encodeEntry).flatten)) =
          (le64 e.offset ++ le64 e.byteLen ++ e.scratch) ++ (es.map encodeEntry).flatten := by
        simp [List.append_assoc]
      rw [hsplit]
      exact List.drop_left' (by simp [length_le64, hs])
    have htk8 : (le64 e.offset ++ (le64 e.byteLen ++ (e.scratch ++
        (es.map encodeEntry).flatten))).take 8 = le64 e.offset :=
      List.take_left' (length_le64 _)
    have hdr8 : (le64 e.offset ++ (le64 e.byteLen ++ (e.scratch ++
        (es.map encodeEntry).flatten))).drop 8 =
        le64 e.byteLen ++ (e.scratch ++ (es.map encodeEntry).flatten) :=
      List.drop_left' (length_le64 _)
    have hdr16 : (le64 e.offset ++ (le64 e.byteLen ++ (e.scratch ++
        (es.map encodeEntry).flatten))).drop 16 = e.scratch ++ (es.map encodeEntry).flatten := by
      have hsplit : le64 e.offset ++ (le64 e.byteLen ++ (e.scratch ++
          (es.map encodeEntry).flatten)) =
          (le64 e.offset ++ le64 e.byteLen) ++ (e.scratch ++ (es.map encodeEntry).flatten) := by
        simp [List.append_assoc]
      rw [hsplit]
      exact List.drop_left' (by simp [length_le64])
    simp only [hdrn, htkn, hdr24, htk8, hdr8, hdr16, ihs]
    rw [deBytes_le64 _ ho]
    have htks : (e.scratch ++ (es.map encodeEntry).flatten).take 8 = e.scratch :=
      List.take_left' hs
    rw [List.take_left' (length_le64 _), deBytes_le64 _ hl, htks]

theorem decodeTable_encodeTable (es : List ResourceEntry)
    (hcount : es.length < 2 ^ 64) (hwf : ∀ e ∈ es, EntryWF e) :
    decodeTable (encodeTable es) = some es := by
  rw [decodeTable, encodeTable]
  have hlen8 : (le64 es.length).length = 8 := length_le64 _
  rw [if_neg (by simp [hlen8]), List.take_left' hlen8, List.drop_left' hlen8,
    deBytes_le64 _ hcount]
  exact decodeEntries_encode es hwf

theorem length_le_length_flatten_encode (es : List ResourceEntry) :
    es.length ≤ ((es.map encodeEntry).flatten).length := by
  induction es with
  | nil => simp
  | cons e es ih =>
    have h2 : 2 ≤ (encodeEntry e).length := by
      simp [encodeEntry, length_le16, length_le64]
    simp only [List.map_cons, List.flatten_cons, List.length_append, List.length_cons]
    omega

theorem length_le_length_encodeTable (es : List ResourceEntry) :
    es.length ≤ (encodeTable es).length := by
  have h := length_le_length_flatten_encode es
  rw [encodeTable, List.length_append, length_le64]
  omega

theorem errCode_ne_zero (e : Err) : errCode e ≠ 0 := by
  cases e <;> simp [errCode]

theorem fsLookup_fsWrite_self (fs : FS) (p : String) (v : List Nat) :
    fsLookup (fsWrite fs p v) p = some v := by
  simp [fsLookup, fsWrite, List.lookup]

theorem fsLookup_fsWrite_ne (fs : FS) (p q : String) (v : List Nat) (h : q ≠ p) :
    fsLookup (fsWrite fs p v) q = fsLookup fs q := by
  simp [fsLookup, fsWrite, List.lookup, beq_eq_false_iff_ne.mpr h]

theorem fsLookup_fsErase_ne (fs : FS) (p q : String) (h : q ≠ p) :
    fsLookup (fsErase fs p) q = fsLookup fs q := by
  induction fs with
  | nil => rfl
  | cons kv fs ih =>
    by_cases hk : kv.1 = p
    · have : (kv.1 != p) = false := by simp [hk]
      have hqk : (q == kv.1) = false := by
        simp [hk]; exact h
      simp only [fsLookup, fsErase, List.filter] at *
      rw [this]
      simp only [List.lookup, hqk]
      exact ih
    · have : (kv.1 != p) = true := by simp [hk]
      simp only [fsLookup, fsErase, List.filter] at *
      rw [this]
      by_cases hq : q = kv.1
      · simp [List.lookup, hq]
      · simp only [List.lookup, beq_eq_false_iff_ne.mpr hq]
        exact ih

theorem set_append_length (l : List PendingRes) (x y : PendingRes) :
    (l ++ [x]).set l.length y = l ++ [y] := by
  induction l with
  | nil => rfl
  | cons a l ih =>
    simp only [List.cons_append, List.length_cons, List.set_cons_succ, ih]

theorem addOne_ok {w : Writer} {n : List Nat} {s : RSource} {w1 : Writer} {i : Nat}
    (h : addOne w n s = .ok (w1, i)) :
    w1 = { w with pending := w.pending ++ [⟨n, s, List.replicate 8 0⟩] } ∧
      i = w.pending.length := by
  cases s <;>
  · simp only [addOne, writerAddFromPath, writerAddFromBytes, writerAddCommon] at h
    split at h
    · exact absurd h (by simp)
    · simp only [Except.ok.injEq, Prod.mk.injEq] at h
      exact ⟨h.1.symm, h.2.symm⟩

theorem setScratch_at_end {op : String} {ou : Option String} {bl : Nat}
    {l : List PendingRes} {n : List Nat} {s : RSource} {b : List Nat} {w2 : Writer}
    (h : writerSetScratch ⟨op, ou, bl, l ++ [⟨n, s, List.replicate 8 0⟩]⟩ l.length b = .ok w2) :
    b.length = 8 ∧ w2 = ⟨op, ou, bl, l ++ [⟨n, s, b⟩]⟩ := by
  unfold writerSetScratch at h
  have hlt : l.length < (l ++ [(⟨n, s, List.replicate 8 0⟩ : PendingRes)]).length := by
    simp
  rw [dif_pos hlt] at h
  split at h
  case isTrue h8 =>
    refine ⟨h8, ?_⟩
    simp only [Except.ok.injEq] at h
    rw [← h]
    have hget : (l ++ [(⟨n, s, List.replicate 8 0⟩ : PendingRes)]).get ⟨l.length, hlt⟩ =
        ⟨n, s, List.replicate 8 0⟩ := by
      rw [List.get_eq_getElem]
      exact List.getElem_concat_length _ _ _ rfl hlt
    simp only [hget]
    rw [set_append_length]
  case isFalse => simp at h

theorem addAll_ok : ∀ (inputs : List (List Nat × RSource × Option (List Nat)))
    (w w' : Writer), addAll w inputs = .ok w' →
    w'.originalPath = w.originalPath ∧ w'.outputPath = w.outputPath ∧
      w'.baseLength = w.baseLength ∧
      w'.pending = w.pending ++ inputs.map mkPending ∧
      ∀ x ∈ inputs, ∀ b, x.2.2 = some b → b.length = 8 := by
  intro inputs
  induction inputs with
  | nil =>
    intro w w' h
    simp only [addAll, Except.ok.injEq] at h
    subst h
    simp
  | cons x rest ih =>
    intro w w' h
    obtain ⟨n, s, scr⟩ := x
    simp only [addAll] at h
    cases h1 : addOne w n s with
    | error e => rw [h1] at h; simp at h
    | ok p =>
      obtain ⟨w1, i⟩ := p
      rw [h1] at h
      obtain ⟨hw1, hi⟩ := addOne_ok h1
      cases scr with
      | none =>
        obtain ⟨ho, hu, hb, hp, hs⟩ := ih w1 w' h
        subst hw1
        refine ⟨ho, hu, hb, ?_, ?_⟩
        · rw [hp]
          simp [mkPending]
        · intro y hy b hb2
          rcases List.mem_cons.mp hy with hyEq | hy
          · subst hyEq; simp at hb2
          · exact hs y hy b hb2
      | some b0 =>
        have h2pre : (match writerSetScratch w1 i b0 with
            | Except.error e => Except.error e
            | Except.ok w2 => addAll w2 rest) = Except.ok w' := h
        cases h2 : writerSetScratch w1 i b0 with
        | error e => rw [h2] at h2pre; simp at h2pre
        | ok w2 =>
          rw [h2] at h2pre
          rw [hw1, hi] at h2
          obtain ⟨h8, hw2⟩ := setScratch_at_end h2
          obtain ⟨ho, hu, hb, hp, hs⟩ := ih w2 w' h2pre
          subst hw2
          refine ⟨ho, hu, hb, ?_, ?_⟩
          · rw [hp]
            simp [mkPending]
          · intro y hy b hb2
            rcases List.mem_cons.mp hy with hyEq | hy
            · subst hyEq
              simp only [Option.some.injEq] at hb2
              subst hb2
              exact h8
            · exact hs y hy b hb2

theorem mkEntries_length : ∀ (rs : List (PendingRes × List Nat)) (off : Nat),
    (mkEntries off rs).length = rs.length := by
  intro rs
  induction rs with
  | nil => intro off; rfl
  | cons y rest ih =>
    intro off
    obtain ⟨pr, d⟩ := y
    simp [mkEntries, ih]

theorem mkEntries_getElem? : ∀ (rs : List (PendingRes × List Nat)) (off i : Nat)
    (x : PendingRes × List Nat), rs[i]? = some x →
    (mkEntries off rs)[i]? = some ⟨x.1.name,
      off + sumLenBefore (rs.map (fun y => y.2)) i, x.2.length, x.1.scratch⟩ := by
  intro rs
  induction rs with
  | nil => intro off i x h; simp at h
  | cons y rest ih =>
    intro off i x h
    obtain ⟨pr, d⟩ := y
    cases i with
    | zero =>
      simp only [List.getElem?_cons_zero, Option.some.injEq] at h
      subst h
      simp [mkEntries, sumLenBefore]
    | succ i =>
      simp only [List.getElem?_cons_succ] at h
      have hrec := ih (off + d.length) i x h
      have harith : off + d.length + sumLenBefore (rest.map (fun y => y.2)) i =
          off + sumLenBefore (((pr, d) :: rest).map (fun y => y.2)) (i + 1) := by
        simp [sumLenBefore, List.take_succ_cons]
        ring
      simp only [mkEntries, List.getElem?_cons_succ]
      rw [hrec, harith]

theorem mkEntries_mem : ∀ (rs : List (PendingRes × List Nat)) (off : Nat)
    (e : ResourceEntry), e ∈ mkEntries off rs →
    ∃ x ∈ rs, e.name = x.1.name ∧ e.scratch = x.1.scratch ∧ e.byteLen = x.2.length ∧
      e.offset + e.byteLen ≤ off + (rs.map (fun y => y.2.length)).sum := by
  intro rs
  induction rs with
  | nil => intro off e h; simp [mkEntries] at h
  | cons y rest ih =>
    intro off e h
    obtain ⟨pr, d⟩ := y
    simp only [mkEntries, List.mem_cons] at h
    rcases h with hEq | h
    · subst hEq
      refine ⟨(pr, d), List.mem_cons_self _ _, rfl, rfl, rfl, ?_⟩
      simp only [List.map_cons, List.sum_cons]
      omega
    · obtain ⟨x, hx, h1, h2, h3, h4⟩ := ih (off + d.length) e h
      refine ⟨x, List.mem_cons_of_mem _ hx, h1, h2, h3, ?_⟩
      simp only [List.map_cons, List.sum_cons]
      omega

theorem mkEntries_map_name : ∀ (rs : List (PendingRes × List Nat)) (off : Nat),
    (mkEntries off rs).map (fun e => e.name) = rs.map (fun x => x.1.name) := by
  intro rs
  induction rs with
  | nil => intro off; rfl
  | cons y rest ih =>
    intro off
    obtain ⟨pr, d⟩ := y
    simp [mkEntries, ih]

theorem flatten_extract : ∀ (ps : List (List Nat)) (i : Nat) (p : List Nat),
    ps[i]? = some p → ∀ (tail : List Nat),
    ((ps.flatten ++ tail).drop (sumLenBefore ps i)).take p.length = p := by
  intro ps
  induction ps with
  | nil => intro i p h; simp at h
  | cons q rest ih =>
    intro i p h tail
    cases i with
    | zero =>
      simp only [List.getElem?_cons_zero, Option.some.injEq] at h
      subst h
      have hsplit : (q :: rest).flatten ++ tail = q ++ (rest.flatten ++ tail) := by
        simp [List.append_assoc]
      have h0 : sumLenBefore (q :: rest) 0 = 0 := rfl
      rw [hsplit, h0, List.drop_zero]
      exact List.take_left q _
    | succ i =>
      simp only [List.getElem?_cons_succ] at h
      have hsum : sumLenBefore (q :: rest) (i + 1) = q.length + sumLenBefore rest i := by
        simp [sumLenBefore, List.take_succ_cons]
      have hsplit : (q :: rest).flatten ++ tail = q ++ (rest.flatten ++ tail) := by
        simp [List.append_assoc]
      rw [hsplit, hsum, List.drop_append]
      exact ih i p h tail

theorem findIdx?_name_of_nodup : ∀ (es : List ResourceEntry),
    (es.map (fun e => e.name)).Nodup →
    ∀ (i : Nat) (e : ResourceEntry), es[i]? = some e →
    es.findIdx? (fun x => x.name == e.name) = some i := by
  intro es
  induction es with
  | nil => intro _ i e h; simp at h
  | cons a rest ih =>
    intro hnd i e h
    simp only [List.map_cons, List.nodup_cons] at hnd
    obtain ⟨hna, hnd⟩ := hnd
    cases i with
    | zero =>
      simp only [List.getElem?_cons_zero, Option.some.injEq] at h
      subst h
      rw [List.findIdx?_cons]
      simp
    | succ i =>
      simp only [List.getElem?_cons_succ] at h
      have hmem : e ∈ rest := by
        obtain ⟨hlt, hEq⟩ := List.getElem?_eq_some.mp h
        subst hEq
        exact List.getElem_mem hlt
      have hne : (a.name == e.name) = false := by
        rw [beq_eq_false_iff_ne]
        intro hcontra
        exact hna (by rw [hcontra]; exact List.mem_map_of_mem _ hmem)
      have hcons : (a :: rest).findIdx? (fun x => x.name == e.name) =
          ((rest.findIdx? (fun x => x.name == e.name)).map (· + 1)) := by
        rw [List.findIdx?_cons, hne]
        simp [List.findIdx?_succ]
      rw [hcons, ih hnd i e h]
      rfl

theorem resolveAll_ok (fs : FS) : ∀ (ps : List PendingRes)
    (resolved : List (PendingRes × List Nat)), resolveAll fs ps = .ok resolved →
    resolved.map (fun x => x.1) = ps ∧
      ∀ x ∈ resolved, resolveSource fs x.1.src = .ok x.2 := by
  intro ps
  induction ps with
  | nil =>
    intro resolved h
    simp only [resolveAll, Except.ok.injEq] at h
    subst h
    simp
  | cons pr rest ih =>
    intro resolved h
    simp only [resolveAll] at h
    cases h1 : resolveSource fs pr.src with
    | error e => rw [h1] at h; simp at h
    | ok d =>
      rw [h1] at h
      cases h2 : resolveAll fs rest with
      | error e => rw [h2] at h; simp at h
      | ok xs =>
        rw [h2] at h
        simp only [Except.ok.injEq] at h
        subst h
        obtain ⟨hmap, hall⟩ := ih xs h2
        refine ⟨by simp [hmap], ?_⟩
        intro x hx
        rcases List.mem_cons.mp hx with hEq | hx
        · subst hEq; exact h1
        · exact hall x hx

theorem locate_found (src : List Nat) (f : Footer) (es : List ResourceEntry)
    (hlen : footerSize ≤ src.length)
    (hdec : decodeFooter (src.drop (src.length - footerSize)) = .found f)
    (htab : decodeTable ((src.drop f.tableOffset).take f.tableLength) = some es) :
    locate src = .ok ⟨f.baseLength, es, f.version⟩ := by
  unfold locate
  rw [if_neg (by omega), hdec]
  show (match decodeTable ((src.drop f.tableOffset).take f.tableLength) with
    | none => (Except.error Err.unknown : Except Err ScanResult)
    | some es2 => Except.ok ⟨f.baseLength, es2, f.version⟩) =
    Except.ok ⟨f.baseLength, es, f.version⟩
  rw [htab]

theorem locate_of_layout (base payload table : List Nat) (f : Footer)
    (entries : List ResourceEntry)
    (hfb : f.baseLength = base.length)
    (hfo : f.tableOffset = base.length + payload.length)
    (hfl : f.tableLength = table.length)
    (hfv : f.version = formatVersion)
    (htab : decodeTable table = some entries)
    (hb : f.baseLength < 2 ^ 64) (ho : f.tableOffset < 2 ^ 64)
    (hl : f.tableLength < 2 ^ 64) (hc : f.resourceCount < 2 ^ 64) :
    locate (base ++ payload ++ table ++ encodeFooter f) =
      .ok ⟨base.length, entries, formatVersion⟩ := by
  have hgroup : base ++ payload ++ table ++ encodeFooter f =
      ((base ++ payload) ++ table) ++ encodeFooter f := by
    simp [List.append_assoc]
  have hlen2 : (((base ++ payload) ++ table) ++ encodeFooter f).length =
      ((base ++ payload) ++ table).length + footerSize := by
    rw [List.length_append, length_encodeFooter]
  have hlen : footerSize ≤ (base ++ payload ++ table ++ encodeFooter f).length := by
    rw [hgroup, hlen2]; omega
  have hdec : decodeFooter ((base ++ payload ++ table ++ encodeFooter f).drop
      ((base ++ payload ++ table ++ encodeFooter f).length - footerSize)) = .found f := by
    rw [hgroup, hlen2]
    have hcancel : ((base ++ payload) ++ table).length + footerSize - footerSize =
        ((base ++ payload) ++ table).length := by omega
    rw [hcancel, List.drop_left]
    exact decodeFooter_encodeFooter f hfv.le hb ho hl hc
  have hslice : (base ++ payload ++ table ++ encodeFooter f).drop f.tableOffset =
      table ++ encodeFooter f := by
    have hgroup2 : base ++ payload ++ table ++ encodeFooter f =
        (base ++ payload) ++ (table ++ encodeFooter f) := by
      simp [List.append_assoc]
    rw [hgroup2, hfo]
    exact List.drop_left' (List.length_append _ _)
  have htabfull : decodeTable (((base ++ payload ++ table ++ encodeFooter f).drop
      f.tableOffset).take f.tableLength) = some entries := by
    rw [hslice, hfl, List.take_left' rfl]
    exact htab
  have hmain := locate_found _ f entries hlen hdec htabfull
  rw [hfb, hfv] at hmain
  exact hmain

theorem commitBytes_eq (w : Writer) (fs : FS) (orig : List Nat)
    (resolved : List (PendingRes × List Nat))
    (horig : fsLookup fs w.originalPath = some orig)
    (hres : resolveAll fs w.pending = .ok resolved) :
    commitBytes w fs = .ok (commitLayout orig w.baseLength resolved) := by
  unfold commitBytes
  rw [horig, hres]
  rfl

theorem commitBytes_inv (w : Writer) (fs : FS) (out : List Nat)
    (h : commitBytes w fs = .ok out) :
    ∃ orig resolved, fsLookup fs w.originalPath = some orig ∧
      resolveAll fs w.pending = .ok resolved ∧
      out = commitLayout orig w.baseLength resolved := by
  cases horig : fsLookup fs w.originalPath with
  | none =>
    exfalso
    unfold commitBytes at h
    rw [horig] at h
    simp at h
  | some orig =>
    cases hres : resolveAll fs w.pending with
    | error e =>
      exfalso
      unfold commitBytes at h
      rw [horig, hres] at h
      simp at h
    | ok resolved =>
      have heq := commitBytes_eq w fs orig resolved horig hres
      rw [h] at heq
      simp only [Except.ok.injEq] at heq
      exact ⟨orig, resolved, rfl, rfl, heq⟩

theorem writerCommit_ok_eq (w : Writer) (fs : FS) (out : List Nat)
    (hout : commitBytes w fs = .ok out) :
    writerCommit w fs =
      (fsWrite (fsErase (fsWrite fs (tempPath fs w) out) (tempPath fs w))
        (targetPath w) out, 0) := by
  unfold writerCommit
  rw [hout]

theorem locate_commitLayout (orig : List Nat) (baseLen : Nat)
    (resolved : List (PendingRes × List Nat))
    (hnm : ∀ x ∈ resolved, x.1.name.length < 2 ^ 16)
    (hs8 : ∀ x ∈ resolved, x.1.scratch.length = 8)
    (hsize : (commitLayout orig baseLen resolved).length < 2 ^ 64) :
    locate (commitLayout orig baseLen resolved) =
      .ok ⟨(orig.take baseLen).length, mkEntries 0 resolved, formatVersion⟩ := by
  have hpl : (resolved.map (fun y => y.2)).flatten.length =
      (resolved.map (fun y => y.2.length)).sum := by
    rw [List.length_flatten, List.map_map]
    rfl
  have hlenout : (commitLayout orig baseLen resolved).length =
      (orig.take baseLen).length + ((resolved.map (fun y => y.2)).flatten.length +
        ((encodeTable (mkEntries 0 resolved)).length + footerSize)) := by
    simp [commitLayout, length_encodeFooter]
  have hcnt : (mkEntries 0 resolved).length ≤ (encodeTable (mkEntries 0 resolved)).length :=
    length_le_length_encodeTable _
  have hwf : ∀ e ∈ mkEntries 0 resolved, EntryWF e := by
    intro e he
    obtain ⟨x, hx, h1, h2, h3, h4⟩ := mkEntries_mem resolved 0 e he
    refine ⟨by rw [h1]; exact hnm x hx, ?_, ?_, by rw [h2]; exact hs8 x hx⟩
    · have : e.offset + e.byteLen ≤ (resolved.map (fun y => y.2)).flatten.length := by
        rw [hpl]; omega
      omega
    · have : e.offset + e.byteLen ≤ (resolved.map (fun y => y.2)).flatten.length := by
        rw [hpl]; omega
      omega
  have htab : decodeTable (encodeTable (mkEntries 0 resolved)) = some (mkEntries 0 resolved) := by
    apply decodeTable_encodeTable
    · omega
    · exact hwf
  have hb2 : (orig.take baseLen).length < 2 ^ 64 := by omega
  have ho2 : (orig.take baseLen).length +
      (resolved.map (fun x => x.2)).flatten.length < 2 ^ 64 := by omega
  have hl2 : (encodeTable (mkEntries 0 resolved)).length < 2 ^ 64 := by omega
  have hc2 : (mkEntries 0 resolved).length < 2 ^ 64 := by omega
  exact locate_of_layout (orig.take baseLen) ((resolved.map (fun x => x.2)).flatten)
    (encodeTable (mkEntries 0 resolved))
    ⟨formatVersion, (orig.take baseLen).length,
      (orig.take baseLen).length + (resolved.map (fun x => x.2)).flatten.length,
      (encodeTable (mkEntries 0 resolved)).length, (mkEntries 0 resolved).length⟩
    (mkEntries 0 resolved) rfl rfl rfl rfl htab hb2 ho2 hl2 hc2

theorem readerInit_eq (fs : FS) (path : String) (src : List Nat) (sr : ScanResult)
    (hsrc : fsLookup fs path = some src) (hloc : locate src = .ok sr) :
    readerInit fs path = .ok ⟨src, sr.base, sr.table, sr.version⟩ := by
  simp only [readerInit, hsrc, hloc]

theorem writerInit_inv (fs : FS) (orig : String) (out : Option String) (w0 : Writer)
    (h : writerInit fs orig out = .ok w0) :
    ∃ src sr, fsLookup fs orig = some src ∧ locate src = .ok sr ∧
      w0 = ⟨orig, out, sr.base, []⟩ := by
  unfold writerInit at h
  split at h
  · simp at h
  · cases hsrc : fsLookup fs orig with
    | none => rw [hsrc] at h; simp at h
    | some src =>
      rw [hsrc] at h
      have h2 : (match locate src with
          | Except.error e => (Except.error e : Except Err Writer)
          | Except.ok sr => Except.ok ⟨orig, out, sr.base, []⟩) = Except.ok w0 := h
      cases hloc : locate src with
      | error e => rw [hloc] at h2; simp at h2
      | ok sr =>
        rw [hloc] at h2
        simp only [Except.ok.injEq] at h2
        exact ⟨src, sr, rfl, hloc, h2.symm⟩

theorem locate_no_alreadyExists (src : List Nat) :
    locate src ≠ .error .outputFileAlreadyExists := by
  unfold locate
  split
  · simp
  · split
    · simp
    · simp
    · split <;> simp

theorem writerCommit_error_eq (w : Writer) (fs : FS) (e : Err)
    (h : commitBytes w fs = .error e) :
    writerCommit w fs =
      (fsErase (fsWrite fs (tempPath fs w) []) (tempPath fs w), errCode e) := by
  unfold writerCommit
  rw [h]

theorem le_maxPathLen (fs : FS) : ∀ kv ∈ fs, kv.1.length ≤ maxPathLen fs := by
  induction fs with
  | nil => intro kv h; simp at h
  | cons a l ih =>
    intro kv h
    rcases List.mem_cons.mp h with hEq | h2
    · subst hEq
      show kv.1.length ≤ max kv.1.length (maxPathLen l)
      exact le_max_left _ _
    · calc kv.1.length ≤ maxPathLen l := ih kv h2
        _ ≤ max a.1.length (maxPathLen l) := le_max_right _ _

theorem fsLookup_eq_none_of_long (fs : FS) (p : String)
    (h : ∀ kv ∈ fs, kv.1.length < p.length) : fsLookup fs p = none := by
  induction fs with
  | nil => rfl
  | cons a l ih =>
    obtain ⟨k, v⟩ := a
    have hne : (p == k) = false := by
      rw [beq_eq_false_iff_ne]
      intro hEq
      have hk : k.length < p.length := h (k, v) (List.mem_cons_self _ _)
      rw [hEq] at hk
      omega
    show List.lookup p ((k, v) :: l) = none
    simp only [List.lookup, hne]
    exact ih (fun kv hk => h kv (List.mem_cons_of_mem _ hk))

theorem length_tempPath (fs : FS) (w : Writer) :
    (tempPath fs w).length = (targetPath w).length + 11 + maxPathLen fs := by
  rw [tempPath, String.length_append, String.length_append]
  have h11 : (".stitch-tmp" : String).length = 11 := rfl
  have hrep : (String.mk (List.replicate (maxPathLen fs) 'x')).length = maxPathLen fs := by
    simp [String.length]
  rw [h11, hrep]

theorem fsLookup_tempPath (fs : FS) (w : Writer) :
    fsLookup fs (tempPath fs w) = none := by
  apply fsLookup_eq_none_of_long
  intro kv hk
  have h1 := le_maxPathLen fs kv hk
  have h2 := length_tempPath fs w
  omega

theorem fsLookup_fsErase_self (fs : FS) (p : String) :
    fsLookup (fsErase fs p) p = none := by
  induction fs with
  | nil => rfl
  | cons a l ih =>
    obtain ⟨k, v⟩ := a
    by_cases hk : k = p
    · subst hk
      show fsLookup (List.filter (fun kv => kv.1 != k) ((k, v) :: l)) k = none
      have hcond : ((k, v).1 != k) = false := by simp
      rw [List.filter_cons, hcond]
      simp only [Bool.false_eq_true, if_false]
      exact ih
    · show fsLookup (List.filter (fun kv => kv.1 != p) ((k, v) :: l)) p = none
      have hcond : ((k, v).1 != p) = true := by simpa using hk
      rw [List.filter_cons, hcond]
      simp only [if_true]
      have hne : (p == k) = false := by
        rw [beq_eq_false_iff_ne]
        exact fun hEq => hk hEq.symm
      show List.lookup p ((k, v) :: List.filter (fun kv => kv.1 != p) l) = none
      simp only [List.lookup, hne]
      exact ih

theorem drop_last_footer (front : List Nat) (f : Footer) :
    (front ++ encodeFooter f).drop ((front ++ encodeFooter f).length - footerSize) =
      encodeFooter f := by
  have h1 : (front ++ encodeFooter f).length = front.length + footerSize := by
    rw [List.length_append, length_encodeFooter]
  have h2 : (front ++ encodeFooter f).length - footerSize = front.length := by omega
  rw [h2, List.drop_left]

/-- C3: if stitch_writer_commit fails, no file in the file system
changes at all: every path, in particular the original input file and
the commit target, reads back exactly as before, so the original is
neither truncated nor corrupted and no truncated or unreadable output
is silently produced; this holds uniformly in in-place and
separate-output modes, because the commit stages to a fresh temporary
that collides with no existing file and is discarded on failure. -/
theorem c3_commit_atomicity (w : Writer) (fs : FS)
    (hfail : (writerCommit w fs).2 ≠ 0) :
    (∀ p : String, fsLookup (writerCommit w fs).1 p = fsLookup fs p) ∧
    fsLookup (writerCommit w fs).1 w.originalPath = fsLookup fs w.originalPath ∧
    fsLookup (writerCommit w fs).1 (targetPath w) = fsLookup fs (targetPath w) := by
  cases hcb : commitBytes w fs with
  | ok out =>
    exfalso
    apply hfail
    rw [writerCommit_ok_eq w fs out hcb]
  | error e =>
    have hrw := writerCommit_error_eq w fs e hcb
    have hmain : ∀ p : String, fsLookup (writerCommit w fs).1 p = fsLookup fs p := by
      intro p
      rw [hrw]
      show fsLookup (fsErase (fsWrite fs (tempPath fs w) []) (tempPath fs w)) p =
        fsLookup fs p
      by_cases hp : p = tempPath fs w
      · subst hp
        rw [fsLookup_fsErase_self, fsLookup_tempPath]
      · rw [fsLookup_fsErase_ne _ _ _ hp, fsLookup_fsWrite_ne _ _ _ _ hp]
    exact ⟨hmain, hmain _, hmain _⟩

/-- C3 witness: a separate-output commit whose original file sits at the
old fixed staging name and whose path-backed resource is missing fails
with an i/o error, and the original file reads back unchanged. -/
theorem c3_commit_atomicity_witness :
    fsLookup (writerCommit
      ⟨"t.stitch-tmp", some "t", 0, [⟨[1], .path "missing", List.replicate 8 0⟩]⟩
      [("t.stitch-tmp", [1])]).1 "t.stitch-tmp" =
    fsLookup [("t.stitch-tmp", [1])] "t.stitch-tmp" :=
  (c3_commit_atomicity
    ⟨"t.stitch-tmp", some "t", 0, [⟨[1], .path "missing", List.replicate 8 0⟩]⟩
    [("t.stitch-tmp", [1])] (by decide)).2.1

/-- C4: a reader session on an executable with no stitch footer, because
the file is shorter than one footer or its magic does not match, succeeds
with resource count 0 and format version 0. -/
theorem c4_no_footer_safety (fs : FS) (path : String) (src : List Nat)
    (hsrc : fsLookup fs path = some src)
    (hnof : src.length < footerSize ∨
      (src.drop (src.length - footerSize)).take 8 ≠ stitchMagic) :
    ∃ r, readerInit fs path = .ok r ∧ readerCount r = 0 ∧ readerVersion r = 0 := by
  have hloc : locate src = .ok ⟨src.length, [], 0⟩ := by
    unfold locate
    rcases hnof with hshort | hmag
    · rw [if_pos hshort]
    · by_cases hshort : src.length < footerSize
      · rw [if_pos hshort]
      · rw [if_neg hshort]
        have hdec : decodeFooter (src.drop (src.length - footerSize)) = .notStitched := by
          unfold decodeFooter
          rw [if_pos hmag]
        rw [hdec]
  exact ⟨⟨src, src.length, [], 0⟩, readerInit_eq fs path src ⟨src.length, [], 0⟩ hsrc hloc,
    rfl, rfl⟩

/-- C4 witness: a one-byte executable with no footer reads back as a
valid empty session. -/
theorem c4_no_footer_safety_witness :
    ∃ r, readerInit [("exe", [7])] "exe" = .ok r ∧
      readerCount r = 0 ∧ readerVersion r = 0 :=
  c4_no_footer_safety [("exe", [7])] "exe" [7] (by decide) (by decide)

/-- C5: every reader access by index at or beyond the resource count
fails with ResourceNotFound, for resource bytes, scratch bytes and
resource byte length alike. -/
theorem c5_bounds_checking (r : Reader) (idx : Nat) (h : readerCount r ≤ idx) :
    readerBytes r idx = .error .resourceNotFound ∧
      readerScratch r idx = .error .resourceNotFound ∧
      readerByteLen r idx = .error .resourceNotFound := by
  have hnone : r.table[idx]? = none := List.getElem?_eq_none h
  refine ⟨?_, ?_, ?_⟩ <;> simp [readerBytes, readerScratch, readerByteLen, hnone]

/-- C5 witness: index 0 on an empty reader session fails with
ResourceNotFound on all three accessors. -/
theorem c5_bounds_checking_witness :
    readerBytes ⟨[], 0, [], 0⟩ 0 = .error .resourceNotFound ∧
      readerScratch ⟨[], 0, [], 0⟩ 0 = .error .resourceNotFound ∧
      readerByteLen ⟨[], 0, [], 0⟩ 0 = .error .resourceNotFound :=
  c5_bounds_checking ⟨[], 0, [], 0⟩ 0 (by decide)

/-- C6: the bytes of a successful commit are, in order, the first
base-length bytes of the original file, the payloads of the pending
resources in index order, the encoded resource table, and the fixed-size
footer as the last bytes of the file. -/
theorem c6_commit_output_layout (w : Writer) (fs : FS) (orig : List Nat)
    (resolved : List (PendingRes × List Nat)) (out : List Nat)
    (horig : fsLookup fs w.originalPath = some orig)
    (hres : resolveAll fs w.pending = .ok resolved)
    (hout : commitBytes w fs = .ok out) :
    out = orig.take w.baseLength ++ (resolved.map (fun x => x.2)).flatten ++
        encodeTable (mkEntries 0 resolved) ++
        encodeFooter (commitFooterOf orig w.baseLength resolved) ∧
      out.drop (out.length - footerSize) =
        encodeFooter (commitFooterOf orig w.baseLength resolved) := by
  have heq := commitBytes_eq w fs orig resolved horig hres
  rw [hout] at heq
  simp only [Except.ok.injEq] at heq
  have hlay : out = commitLayout orig w.baseLength resolved := heq
  constructor
  · rw [hlay]; rfl
  · rw [hlay]
    have hgroup : commitLayout orig w.baseLength resolved =
        (orig.take w.baseLength ++ ((resolved.map (fun x => x.2)).flatten ++
          encodeTable (mkEntries 0 resolved))) ++
          encodeFooter (commitFooterOf orig w.baseLength resolved) := by
      simp [commitLayout, commitFooterOf, List.append_assoc]
    rw [hgroup]
    exact drop_last_footer _ _

/-- C6 witness: a concrete one-resource commit produces exactly the
base, payload, table and trailing footer concatenation. -/
theorem c6_commit_output_layout_witness :
    ∃ out : List Nat, commitBytes ⟨"a", none, 2, [⟨[1], .bytes [9], List.replicate 8 0⟩]⟩
        [("a", [5, 6])] = .ok out ∧
      (out = [5, 6].take 2 ++
        (([(⟨[1], RSource.bytes [9], List.replicate 8 0⟩, [9])] :
          List (PendingRes × List Nat)).map (fun x => x.2)).flatten ++
        encodeTable (mkEntries 0 [(⟨[1], RSource.bytes [9], List.replicate 8 0⟩, [9])]) ++
        encodeFooter (commitFooterOf [5, 6] 2
          [(⟨[1], RSource.bytes [9], List.replicate 8 0⟩, [9])]) ∧
      out.drop (out.length - footerSize) =
        encodeFooter (commitFooterOf [5, 6] 2
          [(⟨[1], RSource.bytes [9], List.replicate 8 0⟩, [9])])) := by
  refine ⟨commitLayout [5, 6] 2 [(⟨[1], RSource.bytes [9], List.replicate 8 0⟩, [9])],
    by rfl, ?_⟩
  exact c6_commit_output_layout ⟨"a", none, 2, [⟨[1], .bytes [9], List.replicate 8 0⟩]⟩
    [("a", [5, 6])] [5, 6] [(⟨[1], RSource.bytes [9], List.replicate 8 0⟩, [9])]
    (commitLayout [5, 6] 2 [(⟨[1], RSource.bytes [9], List.replicate 8 0⟩, [9])])
    (by rfl) (by rfl) (by rfl)

/-- C7: creating a writer with a provided, non-empty output path that is
distinct from the original and already exists fails with
OutputAlreadyExists; with a NULL output path or one equal to the
original, that error can never arise. -/
theorem c7_output_collision_guard :
    (∀ (fs : FS) (orig o : String), o ≠ "" → o ≠ orig →
      (fsLookup fs o).isSome = true →
      writerInit fs orig (some o) = .error .outputFileAlreadyExists) ∧
    (∀ (fs : FS) (orig : String) (out : Option String),
      (out = none ∨ out = some orig) →
      writerInit fs orig out ≠ .error .outputFileAlreadyExists) := by
  constructor
  · intro fs orig o h1 h2 h3
    have hcol : outputCollides fs orig (some o) = true := by
      simp [outputCollides, bne_iff_ne, h1, h2, h3]
    unfold writerInit
    rw [if_pos hcol]
  · intro fs orig out hip hcontra
    have hnc : outputCollides fs orig out = false := by
      rcases hip with h | h <;> subst h
      · rfl
      · simp [outputCollides]
    unfold writerInit at hcontra
    rw [if_neg (by simp [hnc])] at hcontra
    cases hsrc : fsLookup fs orig with
    | none => rw [hsrc] at hcontra; simp at hcontra
    | some src =>
      rw [hsrc] at hcontra
      have h2 : (match locate src with
          | Except.error e => (Except.error e : Except Err Writer)
          | Except.ok sr => Except.ok ⟨orig, out, sr.base, []⟩) =
          Except.error .outputFileAlreadyExists := hcontra
      cases hloc : locate src with
      | ok sr => rw [hloc] at h2; simp at h2
      | error e =>
        rw [hloc] at h2
        simp only [Except.error.injEq] at h2
        subst h2
        exact locate_no_alreadyExists src hloc

/-- C7 witness: a colliding distinct output path fails with
OutputAlreadyExists, while the in-place form on the same file system
does not produce that error. -/
theorem c7_output_collision_guard_witness :
    writerInit [("b", [])] "a" (some "b") = .error .outputFileAlreadyExists ∧
      writerInit [("b", [])] "a" (some "a") ≠ .error .outputFileAlreadyExists :=
  ⟨c7_output_collision_guard.1 [("b", [])] "a" "b" (by decide) (by decide) (by decide),
    c7_output_collision_guard.2 [("b", [])] "a" (some "a") (Or.inr rfl)⟩

/-- C9: every failing call to get_resource_index, get_resource_byte_len,
add_resource_from_path or add_resource_from_bytes returns the UINT64_MAX
sentinel, and every successful one sets the error code to
STITCH_SUCCESS (0). -/
theorem c9_failure_sentinel :
    (∀ (cr : CReader) (name : List Nat),
      ((cReaderRun cr (.getIndex name)).2.2 ≠ 0 →
        (cReaderRun cr (.getIndex name)).2.1 = UINT64MAX) ∧
      (∀ i, readerIndexOf cr.core name = .ok i →
        (cReaderRun cr (.getIndex name)).2.2 = 0)) ∧
    (∀ (cr : CReader) (idx : Nat),
      ((cReaderRun cr (.getByteLen idx)).2.2 ≠ 0 →
        (cReaderRun cr (.getByteLen idx)).2.1 = UINT64MAX) ∧
      (∀ l, readerByteLen cr.core idx = .ok l →
        (cReaderRun cr (.getByteLen idx)).2.2 = 0)) ∧
    (∀ (cw : CWriter) (name : List Nat) (path : String),
      ((cWriterRun cw (.addPath name path)).2.2 ≠ 0 →
        (cWriterRun cw (.addPath name path)).2.1 = UINT64MAX) ∧
      (∀ p, writerAddFromPath cw.core name path = .ok p →
        (cWriterRun cw (.addPath name path)).2.2 = 0)) ∧
    (∀ (cw : CWriter) (name data : List Nat),
      ((cWriterRun cw (.addBytes name data)).2.2 ≠ 0 →
        (cWriterRun cw (.addBytes name data)).2.1 = UINT64MAX) ∧
      (∀ p, writerAddFromBytes cw.core name data = .ok p →
        (cWriterRun cw (.addBytes name data)).2.2 = 0)) := by
  refine ⟨?_, ?_, ?_, ?_⟩
  · intro cr name
    cases h : readerIndexOf cr.core name with
    | ok i =>
      refine ⟨?_, ?_⟩
      · intro hne
        exfalso
        exact hne (by simp [cReaderRun, readerStep, h])
      · intro j hj
        simp [cReaderRun, readerStep, h]
    | error e =>
      refine ⟨?_, ?_⟩
      · intro _
        simp [cReaderRun, readerStep, h]
      · intro j hj
        simp at hj
  · intro cr idx
    cases h : readerByteLen cr.core idx with
    | ok l =>
      refine ⟨?_, ?_⟩
      · intro hne
        exfalso
        exact hne (by simp [cReaderRun, readerStep, h])
      · intro j hj
        simp [cReaderRun, readerStep, h]
    | error e =>
      refine ⟨?_, ?_⟩
      · intro _
        simp [cReaderRun, readerStep, h]
      · intro j hj
        simp at hj
  · intro cw name path
    cases h : writerAddFromPath cw.core name path with
    | ok p =>
      refine ⟨?_, ?_⟩
      · intro hne
        exfalso
        exact hne (by simp [cWriterRun, writerStep, h])
      · intro j hj
        simp [cWriterRun, writerStep, h]
    | error e =>
      refine ⟨?_, ?_⟩
      · intro _
        simp [cWriterRun, writerStep, h]
      · intro j hj
        simp at hj
  · intro cw name data
    cases h : writerAddFromBytes cw.core name data with
    | ok p =>
      refine ⟨?_, ?_⟩
      · intro hne
        exfalso
        exact hne (by simp [cWriterRun, writerStep, h])
      · intro j hj
        simp [cWriterRun, writerStep, h]
    | error e =>
      refine ⟨?_, ?_⟩
      · intro _
        simp [cWriterRun, writerStep, h]
      · intro j hj
        simp at hj

/-- C9 witness: a name lookup on an empty reader fails and returns the
sentinel, and a fresh buffer-backed add succeeds with error code 0. -/
theorem c9_failure_sentinel_witness :
    (cReaderRun ⟨⟨[], 0, [], 0⟩, none, []⟩ (.getIndex [0])).2.1 = UINT64MAX ∧
      (cWriterRun ⟨⟨"a", none, 0, []⟩, none, []⟩ (.addBytes [1] [2])).2.2 = 0 :=
  ⟨(c9_failure_sentinel.1 ⟨⟨[], 0, [], 0⟩, none, []⟩ [0]).1 (by decide),
    (c9_failure_sentinel.2.2.2 ⟨⟨"a", none, 0, []⟩, none, []⟩ [1] [2]).2
      (⟨"a", none, 0, [⟨[1], .bytes [2], List.replicate 8 0⟩]⟩, 0) (by rfl)⟩

/-- C10: a session diagnostic is NULL after a successful call and a
non-NULL session-owned string after a failing one; every call resets it;
API calls never release owned allocations, which are released exactly at
stitch_deinit. -/
theorem c10_diagnostic_presence :
    (∀ (cw : CWriter) (op : WriterOp),
      ((cWriterRun cw op).2.2 = 0 → (cWriterRun cw op).1.diag = none) ∧
      ((cWriterRun cw op).2.2 ≠ 0 → ∃ m, (cWriterRun cw op).1.diag = some m ∧
        m ∈ (cWriterRun cw op).1.owned) ∧
      (∀ m ∈ cw.owned, m ∈ (cWriterRun cw op).1.owned) ∧
      cWriterDeinit (cWriterRun cw op).1 = (cWriterRun cw op).1.owned) ∧
    (∀ (cr : CReader) (op : ReaderOp),
      ((cReaderRun cr op).2.2 = 0 → (cReaderRun cr op).1.diag = none) ∧
      ((cReaderRun cr op).2.2 ≠ 0 → ∃ m, (cReaderRun cr op).1.diag = some m ∧
        m ∈ (cReaderRun cr op).1.owned) ∧
      (∀ m ∈ cr.owned, m ∈ (cReaderRun cr op).1.owned) ∧
      cReaderDeinit (cReaderRun cr op).1 = (cReaderRun cr op).1.owned) := by
  constructor
  · intro cw op
    rcases hstep : writerStep cw.core op with ⟨w2, v, e?⟩
    cases e? with
    | none =>
      have hrun : cWriterRun cw op = (⟨w2, none, cw.owned⟩, v, 0) := by
        unfold cWriterRun
        rw [hstep]
      refine ⟨?_, ?_, ?_, ?_⟩
      · intro _
        rw [hrun]
      · intro hne
        exfalso
        exact hne (by rw [hrun])
      · intro m hm
        rw [hrun]
        exact hm
      · rw [hrun]
        rfl
    | some e =>
      have hrun : cWriterRun cw op =
          (⟨w2, some (errMsg e), errMsg e :: cw.owned⟩, v, errCode e) := by
        unfold cWriterRun
        rw [hstep]
      refine ⟨?_, ?_, ?_, ?_⟩
      · intro h0
        exfalso
        rw [hrun] at h0
        exact errCode_ne_zero e h0
      · intro _
        exact ⟨errMsg e, by rw [hrun], by rw [hrun]; exact List.mem_cons_self _ _⟩
      · intro m hm
        rw [hrun]
        exact List.mem_cons_of_mem _ hm
      · rw [hrun]
        rfl
  · intro cr op
    rcases hstep : readerStep cr.core op with ⟨v, e?⟩
    cases e? with
    | none =>
      have hrun : cReaderRun cr op = (⟨cr.core, none, cr.owned⟩, v, 0) := by
        unfold cReaderRun
        rw [hstep]
      refine ⟨?_, ?_, ?_, ?_⟩
      · intro _
        rw [hrun]
      · intro hne
        exfalso
        exact hne (by rw [hrun])
      · intro m hm
        rw [hrun]
        exact hm
      · rw [hrun]
        rfl
    | some e =>
      have hrun : cReaderRun cr op =
          (⟨cr.core, some (errMsg e), errMsg e :: cr.owned⟩, v, errCode e) := by
        unfold cReaderRun
        rw [hstep]
      refine ⟨?_, ?_, ?_, ?_⟩
      · intro h0
        exfalso
        rw [hrun] at h0
        exact errCode_ne_zero e h0
      · intro _
        exact ⟨errMsg e, by rw [hrun], by rw [hrun]; exact List.mem_cons_self _ _⟩
      · intro m hm
        rw [hrun]
        exact List.mem_cons_of_mem _ hm
      · rw [hrun]
        rfl

/-- C10 witness: a failing call on a fresh reader stores a diagnostic in
the session-owned allocations, and a successful count call resets it to
none. -/
theorem c10_diagnostic_presence_witness :
    (∃ m, (cReaderRun ⟨⟨[], 0, [], 0⟩, none, []⟩ (.getIndex [0])).1.diag = some m ∧
      m ∈ (cReaderRun ⟨⟨[], 0, [], 0⟩, none, []⟩ (.getIndex [0])).1.owned) ∧
      (cReaderRun ⟨⟨[], 0, [], 0⟩, none, []⟩ .count).1.diag = none :=
  ⟨(c10_diagnostic_presence.2 ⟨⟨[], 0, [], 0⟩, none, []⟩ (.getIndex [0])).2.1 (by decide),
    (c10_diagnostic_presence.2 ⟨⟨[], 0, [], 0⟩, none, []⟩ .count).1 (by decide)⟩

theorem readerIndexOf_eq (r : Reader) (name : List Nat) (i : Nat)
    (h : r.table.findIdx? (fun e => e.name == name) = some i) :
    readerIndexOf r name = .ok i := by
  unfold readerIndexOf
  rw [h]

theorem readerByteLen_eq (r : Reader) (idx : Nat) (e : ResourceEntry)
    (h : r.table[idx]? = some e) : readerByteLen r idx = .ok e.byteLen := by
  unfold readerByteLen
  rw [h]

theorem readerBytes_eq (r : Reader) (idx : Nat) (e : ResourceEntry)
    (h : r.table[idx]? = some e) :
    readerBytes r idx = .ok ((r.source.drop (r.base + e.offset)).take e.byteLen) := by
  unfold readerBytes
  rw [h]

theorem readerScratch_eq (r : Reader) (idx : Nat) (e : ResourceEntry)
    (h : r.table[idx]? = some e) : readerScratch r idx = .ok e.scratch := by
  unfold readerScratch
  rw [h]

theorem addOne_names {w : Writer} {n : List Nat} {s : RSource} {w1 : Writer} {i : Nat}
    (h : addOne w n s = .ok (w1, i)) : n ∉ w.pending.map (fun p => p.name) := by
  cases s <;>
  · simp only [addOne, writerAddFromPath, writerAddFromBytes, writerAddCommon] at h
    by_cases hn : n ∈ w.pending.map (fun p => p.name)
    · rw [if_pos hn] at h
      simp at h
    · exact hn

theorem nodup_names_append (l : List PendingRes) (n : List Nat) (s : RSource)
    (b : List Nat) (hnd : (l.map (fun p => p.name)).Nodup)
    (hn : n ∉ l.map (fun p => p.name)) :
    ((l ++ [(⟨n, s, b⟩ : PendingRes)]).map (fun p => p.name)).Nodup := by
  rw [List.map_append, List.nodup_append]
  refine ⟨hnd, List.nodup_singleton _, ?_⟩
  intro a ha hb
  simp only [List.map_cons, List.map_nil, List.mem_singleton] at hb
  subst hb
  exact hn ha

theorem addAll_nodup : ∀ (inputs : List (List Nat × RSource × Option (List Nat)))
    (w w' : Writer), addAll w inputs = .ok w' →
    (w.pending.map (fun p => p.name)).Nodup →
    (w'.pending.map (fun p => p.name)).Nodup := by
  intro inputs
  induction inputs with
  | nil =>
    intro w w' h hnd
    simp only [addAll, Except.ok.injEq] at h
    subst h
    exact hnd
  | cons x rest ih =>
    intro w w' h hnd
    obtain ⟨n, s, scr⟩ := x
    simp only [addAll] at h
    cases h1 : addOne w n s with
    | error e => rw [h1] at h; simp at h
    | ok p =>
      obtain ⟨w1, i⟩ := p
      rw [h1] at h
      obtain ⟨hw1, hi⟩ := addOne_ok h1
      have hnotin := addOne_names h1
      have hnd1 : (w1.pending.map (fun p => p.name)).Nodup := by
        rw [hw1]
        exact nodup_names_append _ _ _ _ hnd hnotin
      cases scr with
      | none => exact ih w1 w' h hnd1
      | some b0 =>
        have h2pre : (match writerSetScratch w1 i b0 with
            | Except.error e => Except.error e
            | Except.ok w2 => addAll w2 rest) = Except.ok w' := h
        cases h2 : writerSetScratch w1 i b0 with
        | error e => rw [h2] at h2pre; simp at h2pre
        | ok w2 =>
          rw [h2] at h2pre
          rw [hw1, hi] at h2
          obtain ⟨h8, hw2⟩ := setScratch_at_end h2
          have hnd2 : (w2.pending.map (fun p => p.name)).Nodup := by
            rw [hw2]
            exact nodup_names_append _ _ _ _ hnd hnotin
          exact ih w2 w' h2pre hnd2

theorem writerInit_eq (fs : FS) (orig : String) (out : Option String) (src : List Nat)
    (sr : ScanResult) (hnc : outputCollides fs orig out = false)
    (hsrc : fsLookup fs orig = some src) (hloc : locate src = .ok sr) :
    writerInit fs orig out = .ok ⟨orig, out, sr.base, []⟩ := by
  simp [writerInit, hnc, hsrc, hloc]

theorem pipeline_main (fs : FS) (origPath : String) (outP : Option String)
    (orig : List Nat) (inputs : List (List Nat × RSource × Option (List Nat)))
    (w0 w : Writer) (out : List Nat)
    (hinit : writerInit fs origPath outP = .ok w0)
    (horig : fsLookup fs origPath = some orig)
    (hbase : w0.baseLength ≤ orig.length)
    (hadd : addAll w0 inputs = .ok w)
    (hname : ∀ x ∈ inputs, x.1.length < 2 ^ 16)
    (hout : commitBytes w fs = .ok out)
    (hsize : out.length < 2 ^ 64) :
    ∃ resolved : List (PendingRes × List Nat),
      resolveAll fs (inputs.map mkPending) = .ok resolved ∧
      resolved.map (fun x => x.1) = inputs.map mkPending ∧
      (∀ x ∈ resolved, resolveSource fs x.1.src = .ok x.2) ∧
      (writerCommit w fs).2 = 0 ∧
      locate out = .ok ⟨w0.baseLength, mkEntries 0 resolved, formatVersion⟩ ∧
      readerInit (writerCommit w fs).1 (targetPath w) =
        .ok ⟨out, w0.baseLength, mkEntries 0 resolved, formatVersion⟩ ∧
      readerCount ⟨out, w0.baseLength, mkEntries 0 resolved, formatVersion⟩ = inputs.length ∧
      readerVersion ⟨out, w0.baseLength, mkEntries 0 resolved, formatVersion⟩ =
        formatVersion ∧
      (∀ (i : Nat) (x : PendingRes × List Nat), resolved[i]? = some x →
        readerIndexOf ⟨out, w0.baseLength, mkEntries 0 resolved, formatVersion⟩
          x.1.name = .ok i ∧
        readerBytes ⟨out, w0.baseLength, mkEntries 0 resolved, formatVersion⟩ i =
          .ok x.2 ∧
        readerByteLen ⟨out, w0.baseLength, mkEntries 0 resolved, formatVersion⟩ i =
          .ok x.2.length ∧
        readerScratch ⟨out, w0.baseLength, mkEntries 0 resolved, formatVersion⟩ i =
          .ok x.1.scratch) := by
  obtain ⟨src0, sr0, hsrc0, hloc0, hw0⟩ := writerInit_inv _ _ _ _ hinit
  have hw0orig : w0.originalPath = origPath := by rw [hw0]
  have hw0pend : w0.pending = [] := by rw [hw0]
  obtain ⟨hworig, hwout, hwbase, hwpend, hscr8⟩ := addAll_ok inputs w0 w hadd
  have hwpend2 : w.pending = inputs.map mkPending := by
    rw [hwpend, hw0pend]
    simp
  have hndw : (w.pending.map (fun p => p.name)).Nodup :=
    addAll_nodup inputs w0 w hadd (by rw [hw0pend]; simp)
  have hnodup : (inputs.map (fun x => x.1)).Nodup := by
    rw [hwpend2] at hndw
    have hmm : (inputs.map mkPending).map (fun p => p.name) =
        inputs.map (fun x => x.1) := by
      rw [List.map_map]
      rfl
    rw [hmm] at hndw
    exact hndw
  obtain ⟨orig2, resolved, horig2, hres2, hlayout⟩ := commitBytes_inv w fs out hout
  rw [hworig, hw0orig, horig] at horig2
  have horigeq : orig2 = orig := by
    simp only [Option.some.injEq] at horig2
    exact horig2.symm
  subst horigeq
  rw [hwpend2] at hres2
  rw [hwbase] at hlayout
  obtain ⟨hmapfst, hallres⟩ := resolveAll_ok fs (inputs.map mkPending) resolved hres2
  have hs8pend : ∀ p ∈ inputs.map mkPending, p.scratch.length = 8 := by
    intro p hp
    obtain ⟨y, hy, hEq⟩ := List.mem_map.mp hp
    subst hEq
    cases hyscr : y.2.2 with
    | none => simp [mkPending, hyscr]
    | some b =>
      simp only [mkPending, hyscr, Option.getD_some]
      exact hscr8 y hy b hyscr
  have hfstmem : ∀ x ∈ resolved, x.1 ∈ inputs.map mkPending := by
    intro x hx
    have h1 : x.1 ∈ resolved.map (fun x => x.1) := List.mem_map_of_mem _ hx
    rw [hmapfst] at h1
    exact h1
  have hnmres : ∀ x ∈ resolved, x.1.name.length < 2 ^ 16 := by
    intro x hx
    obtain ⟨y, hy, hEq⟩ := List.mem_map.mp (hfstmem x hx)
    have hxn : x.1.name = y.1 := by rw [← hEq]; rfl
    rw [hxn]
    exact hname y hy
  have hs8res : ∀ x ∈ resolved, x.1.scratch.length = 8 := fun x hx =>
    hs8pend x.1 (hfstmem x hx)
  have hsize2 : (commitLayout orig2 w0.baseLength resolved).length < 2 ^ 64 := by
    rw [← hlayout]
    exact hsize
  have hloc := locate_commitLayout orig2 w0.baseLength resolved hnmres hs8res hsize2
  have hlenbase : (orig2.take w0.baseLength).length = w0.baseLength := by
    rw [List.length_take]
    omega
  rw [hlenbase] at hloc
  have hloc2 : locate out = .ok ⟨w0.baseLength, mkEntries 0 resolved, formatVersion⟩ := by
    rw [hlayout]
    exact hloc
  have hcommit := writerCommit_ok_eq w fs out hout
  have hcode : (writerCommit w fs).2 = 0 := by rw [hcommit]
  have hlook : fsLookup (writerCommit w fs).1 (targetPath w) = some out := by
    rw [hcommit]
    exact fsLookup_fsWrite_self _ _ _
  have hreader : readerInit (writerCommit w fs).1 (targetPath w) =
      .ok ⟨out, w0.baseLength, mkEntries 0 resolved, formatVersion⟩ :=
    readerInit_eq _ _ out ⟨w0.baseLength, mkEntries 0 resolved, formatVersion⟩ hlook hloc2
  have hlenres : resolved.length = inputs.length := by
    have h1 := congrArg List.length hmapfst
    simpa using h1
  have hcount : readerCount ⟨out, w0.baseLength, mkEntries 0 resolved, formatVersion⟩ =
      inputs.length := by
    show (mkEntries 0 resolved).length = inputs.length
    rw [mkEntries_length]
    exact hlenres
  have hnodup2 : ((mkEntries 0 resolved).map (fun e => e.name)).Nodup := by
    rw [mkEntries_map_name]
    have h1 : resolved.map (fun x => x.1.name) = inputs.map (fun y => y.1) := by
      calc resolved.map (fun x => x.1.name)
          = (resolved.map (fun x => x.1)).map (fun p => p.name) := by
            rw [List.map_map]; rfl
        _ = (inputs.map mkPending).map (fun p => p.name) := by rw [hmapfst]
        _ = inputs.map (fun y => y.1) := by rw [List.map_map]; rfl
    rw [h1]
    exact hnodup
  refine ⟨resolved, hres2, hmapfst, hallres, hcode, hloc2, hreader, hcount, rfl, ?_⟩
  intro i x hx
  have hElem := mkEntries_getElem? resolved 0 i x hx
  simp only [Nat.zero_add] at hElem
  have hfind := findIdx?_name_of_nodup (mkEntries 0 resolved) hnodup2 i _ hElem
  refine ⟨readerIndexOf_eq _ _ _ hfind, ?_, readerByteLen_eq _ _ _ hElem,
    readerScratch_eq _ _ _ hElem⟩
  have hb1 : readerBytes ⟨out, w0.baseLength, mkEntries 0 resolved, formatVersion⟩ i =
      .ok ((out.drop (w0.baseLength +
        sumLenBefore (resolved.map (fun y => y.2)) i)).take x.2.length) :=
    readerBytes_eq _ _ _ hElem
  have hps : (resolved.map (fun y => y.2))[i]? = some x.2 := by
    rw [List.getElem?_map, hx]
    rfl
  have hextract := flatten_extract (resolved.map (fun y => y.2)) i x.2 hps
    (encodeTable (mkEntries 0 resolved) ++
      encodeFooter (commitFooterOf orig2 w0.baseLength resolved))
  have hsplit : out = orig2.take w0.baseLength ++
      ((resolved.map (fun y => y.2)).flatten ++
        (encodeTable (mkEntries 0 resolved) ++
          encodeFooter (commitFooterOf orig2 w0.baseLength resolved))) := by
    rw [hlayout]
    simp [commitLayout, commitFooterOf, List.append_assoc]
  have hidx : w0.baseLength + sumLenBefore (resolved.map (fun y => y.2)) i =
      (orig2.take w0.baseLength).length + sumLenBefore (resolved.map (fun y => y.2)) i := by
    rw [hlenbase]
  have hdropB : out.drop (w0.baseLength + sumLenBefore (resolved.map (fun y => y.2)) i) =
      ((resolved.map (fun y => y.2)).flatten ++
        (encodeTable (mkEntries 0 resolved) ++
          encodeFooter (commitFooterOf orig2 w0.baseLength resolved))).drop
        (sumLenBefore (resolved.map (fun y => y.2)) i) := by
    conv =>
      left
      rw [hsplit, hidx]
    rw [List.drop_append]
  rw [hdropB, hextract] at hb1
  exact hb1

/-- C1: round-trip.  Tuples with unique names added through the add entry
points (path-backed or buffer-backed), with optional scratch overrides,
committed and read back through a reader session on the output, yield
the same resource count, each name resolving to its insertion index,
the same payload bytes and scratch bytes, and a format version equal to
the version the writer emitted. -/
theorem c1_round_trip (fs : FS) (origPath : String) (outP : Option String)
    (orig : List Nat) (inputs : List (List Nat × RSource × Option (List Nat)))
    (w0 w : Writer) (out : List Nat)
    (hinit : writerInit fs origPath outP = .ok w0)
    (horig : fsLookup fs origPath = some orig)
    (hbase : w0.baseLength ≤ orig.length)
    (hadd : addAll w0 inputs = .ok w)
    (_hnodup : (inputs.map (fun x => x.1)).Nodup)
    (hname : ∀ x ∈ inputs, x.1.length < 2 ^ 16)
    (hout : commitBytes w fs = .ok out)
    (hsize : out.length < 2 ^ 64) :
    (writerCommit w fs).2 = 0 ∧
    ∃ r : Reader, readerInit (writerCommit w fs).1 (targetPath w) = .ok r ∧
      readerCount r = inputs.length ∧
      readerVersion r = formatVersion ∧
      ∀ (i : Nat) (name : List Nat) (s : RSource) (scr : Option (List Nat)),
        inputs[i]? = some (name, s, scr) →
        readerIndexOf r name = .ok i ∧
        (∀ pl, resolveSource fs s = .ok pl →
          readerBytes r i = .ok pl ∧ readerByteLen r i = .ok pl.length) ∧
        readerScratch r i = .ok (scr.getD (List.replicate 8 0)) := by
  obtain ⟨resolved, hres, hmapfst, hallres, hcode, hloc2, hreader, hcount, hver, hidx⟩ :=
    pipeline_main fs origPath outP orig inputs w0 w out hinit horig hbase hadd
      hname hout hsize
  refine ⟨hcode, ⟨out, w0.baseLength, mkEntries 0 resolved, formatVersion⟩, hreader,
    hcount, hver, ?_⟩
  intro i name s scr hin
  have hmp : (inputs.map mkPending)[i]? = some (mkPending (name, s, scr)) := by
    rw [List.getElem?_map, hin]
    rfl
  have hri : (resolved.map (fun x => x.1))[i]? = some (mkPending (name, s, scr)) := by
    rw [hmapfst]
    exact hmp
  rw [List.getElem?_map] at hri
  obtain ⟨x, hx, hxfst⟩ := Option.map_eq_some'.mp hri
  obtain ⟨hfind, hbytes, hblen, hscratch⟩ := hidx i x hx
  have hn : x.1.name = name := by rw [hxfst]; rfl
  have hsc : x.1.scratch = scr.getD (List.replicate 8 0) := by rw [hxfst]; rfl
  have hsrcEq : x.1.src = s := by rw [hxfst]; rfl
  rw [hn] at hfind
  rw [hsc] at hscratch
  refine ⟨hfind, ?_, hscratch⟩
  intro pl hpl
  have hxmem : x ∈ resolved := by
    obtain ⟨hlt, hEq⟩ := List.getElem?_eq_some.mp hx
    subst hEq
    exact List.getElem_mem hlt
  have hresx : resolveSource fs s = .ok x.2 := by
    rw [← hsrcEq]
    exact hallres x hxmem
  have hpleq : pl = x.2 := by
    have h2 : (Except.ok pl : Except Err (List Nat)) = .ok x.2 := hpl.symm.trans hresx
    simp only [Except.ok.injEq] at h2
    exact h2
  subst hpleq
  exact ⟨hbytes, hblen⟩

/-- C1 witness: the concrete two-resource scenario commits with code 0
and reads back with matching count, indices, bytes, lengths, scratch
values and format version. -/
theorem c1_round_trip_witness :
    (writerCommit wWit fsWit).2 = 0 ∧
    ∃ r : Reader, readerInit (writerCommit wWit fsWit).1 (targetPath wWit) = .ok r ∧
      readerCount r = inputsWit.length ∧
      readerVersion r = formatVersion ∧
      ∀ (i : Nat) (name : List Nat) (s : RSource) (scr : Option (List Nat)),
        inputsWit[i]? = some (name, s, scr) →
        readerIndexOf r name = .ok i ∧
        (∀ pl, resolveSource fsWit s = .ok pl →
          readerBytes r i = .ok pl ∧ readerByteLen r i = .ok pl.length) ∧
        readerScratch r i = .ok (scr.getD (List.replicate 8 0)) :=
  c1_round_trip fsWit "exe" (some "new") [0, 1, 2] inputsWit w0Wit wWit outWit
    (by rfl) (by rfl) (by decide) (by rfl) (by decide) (by decide) (by rfl) (by decide)

/-- C2: idempotent re-stitch.  Committing in place (NULL or equal output
path) and re-creating a writer session on the result yields the same
base length the first session learned by scanning the original, so base
length never compounds across repeated in-place commits; when the
original carried no footer, that base length is exactly the original
length before any stitching. -/
theorem c2_idempotent_restitch (fs : FS) (origPath : String) (outP : Option String)
    (orig : List Nat) (inputs : List (List Nat × RSource × Option (List Nat)))
    (w0 w : Writer) (out : List Nat)
    (hip : outP = none ∨ outP = some origPath)
    (hinit : writerInit fs origPath outP = .ok w0)
    (horig : fsLookup fs origPath = some orig)
    (hbase : w0.baseLength ≤ orig.length)
    (hadd : addAll w0 inputs = .ok w)
    (hname : ∀ x ∈ inputs, x.1.length < 2 ^ 16)
    (hout : commitBytes w fs = .ok out)
    (hsize : out.length < 2 ^ 64) :
    (writerCommit w fs).2 = 0 ∧
    ∃ w2 : Writer, writerInit (writerCommit w fs).1 origPath outP = .ok w2 ∧
      w2.baseLength = w0.baseLength ∧
      (orig.length < footerSize ∨
        (orig.drop (orig.length - footerSize)).take 8 ≠ stitchMagic →
        w2.baseLength = orig.length) := by
  obtain ⟨resolved, hres, hmapfst, hallres, hcode, hloc2, hreader, hcount, hver, hidx⟩ :=
    pipeline_main fs origPath outP orig inputs w0 w out hinit horig hbase hadd
      hname hout hsize
  obtain ⟨src0, sr0, hsrc0, hloc0, hw0⟩ := writerInit_inv _ _ _ _ hinit
  obtain ⟨hworig, hwout, hwbase, hwpend, hscr8⟩ := addAll_ok inputs w0 w hadd
  have hworig2 : w.originalPath = origPath := by rw [hworig, hw0]
  have hwout2 : w.outputPath = outP := by rw [hwout, hw0]
  have htgt : targetPath w = origPath := by
    rcases hip with h | h
    · rw [targetPath, hwout2, h]
      exact hworig2
    · rw [targetPath, hwout2, h]
      rfl
  have hlook : fsLookup (writerCommit w fs).1 origPath = some out := by
    rw [writerCommit_ok_eq w fs out hout, ← htgt]
    exact fsLookup_fsWrite_self _ _ _
  have hnc : outputCollides (writerCommit w fs).1 origPath outP = false := by
    rcases hip with h | h <;> subst h
    · rfl
    · simp [outputCollides]
  have hw2 := writerInit_eq (writerCommit w fs).1 origPath outP out
    ⟨w0.baseLength, mkEntries 0 resolved, formatVersion⟩ hnc hlook hloc2
  refine ⟨hcode, ⟨origPath, outP, w0.baseLength, []⟩, hw2, rfl, ?_⟩
  intro hnof
  show w0.baseLength = orig.length
  have hsrc0eq : src0 = orig := by
    rw [horig] at hsrc0
    simp only [Option.some.injEq] at hsrc0
    exact hsrc0.symm
  subst hsrc0eq
  have hlocfresh : locate src0 = .ok ⟨src0.length, [], 0⟩ := by
    unfold locate
    rcases hnof with hshort | hmag
    · rw [if_pos hshort]
    · by_cases hshort : src0.length < footerSize
      · rw [if_pos hshort]
      · rw [if_neg hshort]
        have hdec : decodeFooter (src0.drop (src0.length - footerSize)) = .notStitched := by
          unfold decodeFooter
          rw [if_pos hmag]
        rw [hdec]
  have hsr0 : sr0 = ⟨src0.length, [], 0⟩ := by
    have h2 : (Except.ok sr0 : Except Err ScanResult) = .ok ⟨src0.length, [], 0⟩ :=
      hloc0.symm.trans hlocfresh
    simp only [Except.ok.injEq] at h2
    exact h2
  rw [hw0, hsr0]

/-- C2 witness: re-stitching in place onto an already-stitched file keeps
the recorded base length at 1, the length of the host executable before
any stitching, instead of compounding to the stitched length. -/
theorem c2_idempotent_restitch_witness :
    (writerCommit w2Wit fs2Wit).2 = 0 ∧
    ∃ w2 : Writer, writerInit (writerCommit w2Wit fs2Wit).1 "exe" none = .ok w2 ∧
      w2.baseLength = (⟨"exe", none, 1, []⟩ : Writer).baseLength ∧
      (out1Wit.length < footerSize ∨
        (out1Wit.drop (out1Wit.length - footerSize)).take 8 ≠ stitchMagic →
        w2.baseLength = out1Wit.length) :=
  c2_idempotent_restitch fs2Wit "exe" none out1Wit [([2], .bytes [6], none)]
    ⟨"exe", none, 1, []⟩ w2Wit
    (commitLayout out1Wit 1 [(⟨[2], .bytes [6], List.replicate 8 0⟩, [6])])
    (Or.inl rfl) (by rfl) (by rfl) (by decide) (by rfl) (by decide) (by rfl) (by decide)

/-- C8: scratch default.  A resource added without a scratch override
reads back after commit as exactly 8 zero bytes; moreover
get_scratch_bytes is defined for every valid index and can fail only
with ResourceNotFound. -/
theorem c8_scratch_default (fs : FS) (origPath : String) (outP : Option String)
    (orig : List Nat) (inputs : List (List Nat × RSource × Option (List Nat)))
    (w0 w : Writer) (out : List Nat)
    (hinit : writerInit fs origPath outP = .ok w0)
    (horig : fsLookup fs origPath = some orig)
    (hbase : w0.baseLength ≤ orig.length)
    (hadd : addAll w0 inputs = .ok w)
    (hname : ∀ x ∈ inputs, x.1.length < 2 ^ 16)
    (hout : commitBytes w fs = .ok out)
    (hsize : out.length < 2 ^ 64) :
    (∃ r : Reader, readerInit (writerCommit w fs).1 (targetPath w) = .ok r ∧
      ∀ (i : Nat) (name : List Nat) (s : RSource),
        inputs[i]? = some (name, s, none) →
        readerScratch r i = .ok (List.replicate 8 0)) ∧
    (∀ (r2 : Reader) (idx : Nat) (e : Err),
      readerScratch r2 idx = .error e → e = .resourceNotFound) ∧
    (∀ (r2 : Reader) (idx : Nat), idx < readerCount r2 →
      ∃ b, readerScratch r2 idx = .ok b) := by
  obtain ⟨resolved, hres, hmapfst, hallres, hcode, hloc2, hreader, hcount, hver, hidx⟩ :=
    pipeline_main fs origPath outP orig inputs w0 w out hinit horig hbase hadd
      hname hout hsize
  refine ⟨⟨⟨out, w0.baseLength, mkEntries 0 resolved, formatVersion⟩, hreader, ?_⟩,
    ?_, ?_⟩
  · intro i name s hin
    have hmp : (inputs.map mkPending)[i]? = some (mkPending (name, s, none)) := by
      rw [List.getElem?_map, hin]
      rfl
    have hri : (resolved.map (fun x => x.1))[i]? = some (mkPending (name, s, none)) := by
      rw [hmapfst]
      exact hmp
    rw [List.getElem?_map] at hri
    obtain ⟨x, hx, hxfst⟩ := Option.map_eq_some'.mp hri
    obtain ⟨hfind, hbytes, hblen, hscratch⟩ := hidx i x hx
    have hsc : x.1.scratch = List.replicate 8 0 := by rw [hxfst]; rfl
    rw [hsc] at hscratch
    exact hscratch
  · intro r2 idx e h
    unfold readerScratch at h
    cases htab : r2.table[idx]? with
    | some entry => rw [htab] at h; simp at h
    | none =>
      rw [htab] at h
      simp only [Except.error.injEq] at h
      exact h.symm
  · intro r2 idx hlt
    have hlt2 : idx < r2.table.length := hlt
    have htab : ∃ e, r2.table[idx]? = some e := by
      rw [List.getElem?_eq_getElem hlt2]
      exact ⟨_, rfl⟩
    obtain ⟨e, htab⟩ := htab
    exact ⟨e.scratch, readerScratch_eq _ _ _ htab⟩

/-- C8 witness: the buffer-backed resource added without a scratch write
in the concrete scenario reads back as 8 zero bytes, and a lookup past
the end of an empty session fails with ResourceNotFound. -/

theorem c8_scratch_default_witness :
    (∃ r : Reader, readerInit (writerCommit wWit fsWit).1 (targetPath wWit) = .ok r ∧
      ∀ (i : Nat) (name : List Nat) (s : RSource),
        inputsWit[i]? = some (name, s, none) →
        readerScratch r i = .ok (List.replicate 8 0)) ∧
    (∀ (r2 : Reader) (idx : Nat) (e : Err),
      readerScratch r2 idx = .error e → e = .resourceNotFound) ∧
    (∀ (r2 : Reader) (idx : Nat), idx < readerCount r2 →
      ∃ b, readerScratch r2 idx = .ok b) :=
  c8_scratch_default fsWit "exe" (some "new") [0, 1, 2] inputsWit w0Wit wWit outWit
    (by rfl) (by rfl) (by decide) (by rfl) (by decide) (by rfl) (by decide)
